import Mathlib

/-!
# Verification of the luis-cli reconciliation and transport core

This file gives a shallow embedding in Lean 4 of the core algorithms of the
`luis-cli` repository (final revisions of `LuisTrainer` and `LuisApiClient`):

* the LUIS-compatible tokenizer `splitSentenceByTokens` and the entity-span
  resolver `findEntity`;
* the collection reconciliation diffs of `updateIntents` and `updateExamples`
  (lodash `differenceWith` / `intersectionWith` are embedded per their
  documented semantics);
* the retrying transport `retryRequest` (the `promise-retry` dependency is
  embedded per its documented exponential-backoff semantics);
* the training poll loop of `train`;
* the prediction comparison helpers `getTopPredictedIntents` and
  `matchPredictedEntities` of `checkPredictions`;
* the paginated read-all loop `getAllExamples`.

JavaScript dynamic field accesses that cross the declared TypeScript
interfaces (the example-entity comparators cast between differently shaped
records) are embedded honestly through a small JSON-object model `JObj`,
where reading a missing key yields `JVal.undef` as in JavaScript.
-/

namespace LuisCli

/-! ## A small model of JavaScript JSON values and strict equality -/

/-- A JSON scalar value as relevant to the embedded comparisons.
`undef` models JavaScript `undefined`, the result of reading an absent key. -/
inductive JVal where
  | str (s : String)
  | num (n : Int)
  | undef
  deriving DecidableEq, Repr

/-- A JavaScript object: an association list from field names to values. -/
abbrev JObj := List (String × JVal)

/-- Reading field `k` of a JavaScript object: `undefined` when absent. -/
def jsGet (o : JObj) (k : String) : JVal :=
  match o.lookup k with
  | some v => v
  | none => JVal.undef

/-- JavaScript strict equality `===` on the modelled values
(`undefined === undefined` is `true`). -/
def jsStrictEq (a b : JVal) : Bool :=
  decide (a = b)

/-- lodash `_.isEqual` restricted to flat objects: both objects have the same
own keys and strictly equal values at each key. -/
def jsDeepEqual (a b : JObj) : Bool :=
  a.all (fun kv => b.lookup kv.1 == some kv.2) &&
  b.all (fun kv => a.lookup kv.1 == some kv.2)

/-! ## lodash list operations used by the reconciler -/

/-- lodash `_.differenceWith(l₁, l₂, cmp)`: the elements of `l₁` for which no
element of `l₂` satisfies the comparator. Order and duplicates of `l₁` are
preserved. -/
def differenceWith (l₁ : List α) (l₂ : List β) (cmp : α → β → Bool) : List α :=
  l₁.filter (fun a => !(l₂.any (cmp a)))

/-- Accumulating worker for `intersectionWith`. A candidate is kept when it
matches some element of `l₂` under `cmp` and no already kept element matches
it under `cmpSeen` (lodash dedupes the result with the same comparator). -/
def intersectionWithGo (cmp : α → β → Bool) (cmpSeen : α → α → Bool)
    (l₂ : List β) : List α → List α → List α
  | acc, [] => acc.reverse
  | acc, a :: as =>
    if l₂.any (cmp a) && !(acc.any (fun r => cmpSeen a r)) then
      intersectionWithGo cmp cmpSeen l₂ (a :: acc) as
    else
      intersectionWithGo cmp cmpSeen l₂ acc as

/-- lodash `_.intersectionWith(l₁, l₂, cmp)`. `cmpSeen` is the comparator as
applied by lodash to two elements of `l₁` for the uniqueness check. -/
def intersectionWith (l₁ : List α) (l₂ : List β) (cmp : α → β → Bool)
    (cmpSeen : α → α → Bool) : List α :=
  intersectionWithGo cmp cmpSeen l₂ [] l₁

/-! ## The tokenizer (`LuisTrainer.splitSentenceByTokens`) -/

/-- JavaScript `\s` whitespace class (ECMAScript WhiteSpace and
LineTerminator productions), as matched by the trimming and the
leading-space skip of the tokenizer. -/
def isSpace (c : Char) : Bool :=
  c = ' ' || c = '\t' || c = '\n' || (c.val = 11) || (c.val = 12) || c = '\r' ||
  c.val = 0xA0 || c.val = 0x1680 || (0x2000 ≤ c.val && c.val ≤ 0x200A) ||
  c.val = 0x2028 || c.val = 0x2029 || c.val = 0x202F || c.val = 0x205F ||
  c.val = 0x3000 || c.val = 0xFEFF

/-- The `WORD_CHARS` character class of the source: ASCII alphanumerics,
ordinal indicators, the micro sign, Latin-1/Latin-Extended letters, modifier
letters, Greek/Coptic and Cyrillic ranges. -/
def isWordChar (c : Char) : Bool :=
  ('0' ≤ c && c ≤ '9') || ('A' ≤ c && c ≤ 'Z') || ('a' ≤ c && c ≤ 'z') ||
  c = 'ª' || c = 'º' ||
  c.val = 0xB5 ||
  (0xC0 ≤ c.val && c.val ≤ 0xD6) || (0xD8 ≤ c.val && c.val ≤ 0xF6) ||
  (0xF8 ≤ c.val && c.val ≤ 0x2AF) ||
  (0x2B0 ≤ c.val && c.val ≤ 0x2C1) ||
  (0x370 ≤ c.val && c.val ≤ 0x374) || (0x376 ≤ c.val && c.val ≤ 0x377) ||
  (0x37A ≤ c.val && c.val ≤ 0x37D) || c.val = 0x386 ||
  (0x388 ≤ c.val && c.val ≤ 0x38A) || c.val = 0x38C ||
  (0x38E ≤ c.val && c.val ≤ 0x3A1) || (0x3A3 ≤ c.val && c.val ≤ 0x3FF) ||
  (0x400 ≤ c.val && c.val ≤ 0x481) || (0x48A ≤ c.val && c.val ≤ 0x523)

/-- The right trim `sentence.replace(/[\s﻿\xA0]+$/g, '')` (the regex
class coincides with `isSpace`). -/
def rtrim (l : List Char) : List Char :=
  (l.reverse.dropWhile isSpace).reverse

/-- JavaScript `String.prototype.trim`, used only in the emptiness check. -/
def jsTrim (l : List Char) : List Char :=
  rtrim (l.dropWhile isSpace)

/-- A token produced by the tokenizer: its text and inclusive character
offsets within the sentence. -/
structure Token where
  token : String
  startChar : Nat
  endChar : Nat
  deriving DecidableEq, Repr

/-- Error kinds of the embedded operations. `rangeError` models the
`Entity positions are out of range` throw; `tokenizerError` models the
`cannot be classified as word or non-word` throw (proved unreachable) and
the fuel artifact of the embedding (also proved unreachable at adequate
fuel). -/
inductive LuisError where
  | rangeError
  | tokenizerError
  deriving DecidableEq, Repr

/-- One `while` pass of `splitSentenceByTokens`: skip leading whitespace,
take the longest `WORD` run or else a single non-word character, record the
token, continue on the rest. `fuel` bounds the number of loop iterations;
`i` is the running character cursor (`sentenceIndex`). -/
def goTok : Nat → List Char → Nat → Except LuisError (List Token)
  | _, [], _ => .ok []
  | 0, _ :: _, _ => .error .tokenizerError
  | fuel + 1, cs, i =>
    let k := (cs.takeWhile isSpace).length
    match cs.drop k with
    | [] => .error .tokenizerError
    | c :: rest =>
      if isWordChar c then
        let run := rest.takeWhile isWordChar
        match goTok fuel (rest.dropWhile isWordChar) (i + k + run.length + 1) with
        | .error e => .error e
        | .ok ts => .ok (⟨⟨c :: run⟩, i + k, i + k + run.length⟩ :: ts)
      else
        match goTok fuel rest (i + k + 1) with
        | .error e => .error e
        | .ok ts => .ok (⟨⟨[c]⟩, i + k, i + k⟩ :: ts)

/-- `LuisTrainer.splitSentenceByTokens`: empty or all-whitespace input is
answered with an empty token list; otherwise the right-trimmed sentence is
scanned by `goTok`. -/
def splitSentenceByTokens (s : String) : Except LuisError (List Token) :=
  if s.data.isEmpty || (jsTrim s.data).isEmpty then .ok []
  else goTok (rtrim s.data).length (rtrim s.data) 0

/-- `LuisTrainer.tokenizeSentence`: the token texts only. -/
def tokenizeSentence (s : String) : Except LuisError (List String) :=
  (splitSentenceByTokens s).map (fun ts => ts.map Token.token)

/-- The token list of a sentence (the tokenizer is proved to never fail,
so the default branch is irrelevant). -/
def tokensOf (s : String) : List Token :=
  match splitSentenceByTokens s with
  | .ok ts => ts
  | .error _ => []

/-- The result of `LuisTrainer.findEntity`. -/
structure FoundEntity where
  word : String
  startChar : Nat
  endChar : Nat
  deriving DecidableEq, Repr

/-- `String.prototype.slice(a, b)` for `0 ≤ a ≤ b`: the characters at
positions `a, …, b-1`. -/
def jsSlice (s : String) (a b : Nat) : String :=
  ⟨(s.data.drop a).take (b - a)⟩

/-- `LuisTrainer.findEntity`: tokenize the sentence, reject token indices
that are negative or not below the token count, and answer the character
span from the start of the start token to the end of the end token together
with the corresponding slice of the sentence. -/
def findEntity (s : String) (startPos endPos : Int) : Except LuisError FoundEntity :=
  match splitSentenceByTokens s with
  | .error e => .error e
  | .ok tokens =>
    if startPos < 0 || startPos ≥ tokens.length || endPos < 0 || endPos ≥ tokens.length then
      .error .rangeError
    else
      match tokens[startPos.toNat]?, tokens[endPos.toNat]? with
      | some st, some en =>
        .ok ⟨jsSlice s st.startChar (en.endChar + 1), st.startChar, en.endChar⟩
      | _, _ => .error .rangeError

/-! ## The intents reconciliation diff (`LuisTrainer.updateIntents`) -/

/-- `LuisApi.IntentGET`: a remote intent as listed by the service. -/
structure IntentGET where
  id : String
  name : String
  deriving DecidableEq, Repr

/-- `LuisApi.IntentPOST`: a desired intent to create. -/
structure IntentPOST where
  name : String
  deriving DecidableEq, Repr

/-- `intentsToBeDeleted`: remote intents with no desired intent of the same
name. -/
def intentsToBeDeleted (oldIntents : List IntentGET) (intents : List IntentPOST) :
    List IntentGET :=
  differenceWith oldIntents intents (fun a b => a.name == b.name)

/-- `intentsToBeCreated`: desired intents with no remote intent of the same
name. -/
def intentsToBeCreated (intents : List IntentPOST) (oldIntents : List IntentGET) :
    List IntentPOST :=
  differenceWith intents oldIntents (fun a b => a.name == b.name)

/-! ## The examples reconciliation diff (`LuisTrainer.updateExamples`)

Remote example entity labels and entity predictions are raw JSON objects
(`JObj`): the source reads fields on them through conflicting TypeScript
casts (`EntityLabelExampleGET` declares `startTokenIndex`/`endTokenIndex`
while the comparators read `startCharIndex`/`endCharIndex`), so the honest
embedding keeps the JavaScript field-access semantics explicit. -/

/-- `LuisModel.EntityPosition`: a locally authored entity annotation with
token indices. -/
structure EntityPosition where
  entity : String
  startPos : Int
  endPos : Int
  deriving DecidableEq, Repr

/-- `LuisModel.Utterance`: a locally authored example. -/
structure Utterance where
  text : String
  intent : String
  entities : List EntityPosition
  deriving DecidableEq, Repr

/-- `LuisApi.IntentPrediction`: a predicted intent with its score. Scores
are embedded as rationals; the code only compares them. -/
structure IntentPrediction where
  name : String
  score : ℚ
  deriving DecidableEq, Repr

/-- `LuisApi.ExampleGET`: a remote example as fetched by `getAllExamples`. -/
structure ExampleGET where
  id : Int
  text : String
  tokenizedText : List String
  intentLabel : String
  entityLabels : List JObj
  intentPredictions : List IntentPrediction
  entityPredictions : List JObj
  deriving DecidableEq, Repr

/-- The JavaScript object underlying an `EntityPosition` (field names as in
the local model), used when lodash applies the entity comparator to two
local entities for its uniqueness check. -/
def entityPositionObj (e : EntityPosition) : JObj :=
  [("entity", .str e.entity), ("startPos", .num e.startPos), ("endPos", .num e.endPos)]

/-- The entity comparator of `updateExamples`:
`ae.entity === be.entityName && ae.startPos === be.startCharIndex &&
ae.endPos === be.endCharIndex`, reading the remote label as a JavaScript
object. -/
def cmpEntity (ae : EntityPosition) (be : JObj) : Bool :=
  jsStrictEq (.str ae.entity) (jsGet be "entityName") &&
  jsStrictEq (.num ae.startPos) (jsGet be "startCharIndex") &&
  jsStrictEq (.num ae.endPos) (jsGet be "endCharIndex")

/-- The same comparator as lodash applies it to two elements of the local
entity list for the `intersectionWith` uniqueness check (reading
`entityName`/`startCharIndex`/`endCharIndex` on a local `EntityPosition`
object). -/
def cmpEntitySeen (ae r : EntityPosition) : Bool :=
  jsStrictEq (.str ae.entity) (jsGet (entityPositionObj r) "entityName") &&
  jsStrictEq (.num ae.startPos) (jsGet (entityPositionObj r) "startCharIndex") &&
  jsStrictEq (.num ae.endPos) (jsGet (entityPositionObj r) "endCharIndex")

/-- The example equality of `updateExamples` used to select
`examplesToBeCreated`: same text, same intent, entity lists of the same
length whose lodash `intersectionWith` under `cmpEntity` covers every local
entity. -/
def eqExample (a : Utterance) (b : ExampleGET) : Bool :=
  a.text == b.text && a.intent == b.intentLabel &&
  a.entities.length == b.entityLabels.length &&
  a.entities.length ==
    (intersectionWith a.entities b.entityLabels cmpEntity cmpEntitySeen).length

/-- `examplesToBeDeleted`: remote examples whose text no desired example
carries. -/
def examplesToBeDeleted (oldExamples : List ExampleGET) (modelExamples : List Utterance) :
    List ExampleGET :=
  differenceWith oldExamples modelExamples (fun a b => a.text == b.text)

/-- The selection part of `examplesToBeCreated`: desired examples with no
remote example equal to them under `eqExample` (before conversion to the
POST format). -/
def examplesToBeCreatedSel (modelExamples : List Utterance) (oldExamples : List ExampleGET) :
    List Utterance :=
  differenceWith modelExamples oldExamples eqExample

/-- A POST entity label object `{entityName, startCharIndex, endCharIndex}`
as built by the conversion of `updateExamples`. -/
def mkPostLabel (name : String) (startChar endChar : Nat) : JObj :=
  [("entityName", .str name), ("startCharIndex", .num startChar),
   ("endCharIndex", .num endChar)]

/-- `LuisApi.ExamplePOST`: the uploaded example; `entityLabels` is `null`
(`none`) when the example has no entities. -/
structure ExamplePOST where
  text : String
  intentName : String
  entityLabels : Option (List JObj)
  deriving DecidableEq, Repr

/-- The conversion part of `examplesToBeCreated`: resolve each local token
span through `findEntity` and build the POST payload. -/
def convertExample (a : Utterance) : Except LuisError ExamplePOST := do
  let labels ← a.entities.mapM (fun e => do
    let fe ← findEntity a.text e.startPos e.endPos
    pure (mkPostLabel e.entity fe.startChar fe.endChar))
  pure ⟨a.text, a.intent, if labels.isEmpty then none else some labels⟩

/-- The full diff of `updateExamples`: examples to delete and the selected
examples to create. -/
def updateExamplesDiff (modelExamples : List Utterance) (oldExamples : List ExampleGET) :
    List ExampleGET × List Utterance :=
  (examplesToBeDeleted oldExamples modelExamples,
   examplesToBeCreatedSel modelExamples oldExamples)

/-! ## The retrying transport (`LuisApiClient.retryRequest`)

The `promise-retry` dependency is embedded per its documented semantics:
the callback calls `retry(err)` to schedule another attempt; the delay
before the `(k+1)`-th retry is `minTimeout · factorᵏ` (`randomize` is off
and `maxTimeout` is unbounded); after `retries` retries the last error
passed to `retry` rejects the promise; any rejection not routed through
`retry` propagates immediately. -/

/-- An HTTP response as observed by `retryRequest`. -/
structure HttpResponse where
  statusCode : Int
  body : String
  deriving DecidableEq, Repr

/-- The retry options of the source (`RETRY_OPTS`). -/
structure RetryOpts where
  retries : Nat
  factor : Nat
  minTimeout : Nat
  deriving DecidableEq, Repr

/-- `RETRY_OPTS = { retries: 10, factor: 2, minTimeout: 1500 }`. -/
def RETRY_OPTS : RetryOpts := ⟨10, 2, 1500⟩

/-- The outcome of `retryRequest`. `success` records the accepted response,
the number of retries performed, and the backoff delays waited before each
retry. `retriesExhausted` is the distinguishable error of an exceeded retry
budget; `unexpectedStatus` carries the offending status code and response
body. -/
inductive RetryOutcome where
  | success (res : HttpResponse) (retries : Nat) (delays : List Nat)
  | retriesExhausted
  | unexpectedStatus (code : Int) (body : String)
  deriving DecidableEq, Repr

/-- One attempt of `retryRequest` under `promise-retry`: a 429 response
asks for a retry (waiting `minTimeout · factor ^ attempt`), any other
status different from the expected one rejects immediately with the body
attached, and the expected status resolves. `left` is the remaining retry
budget; `n` counts the attempts already made; `delays` accumulates the
backoff delays. -/
def retryRequestGo (responses : Nat → HttpResponse) (expectedStatusCode : Int)
    (opts : RetryOpts) (n : Nat) (delays : List Nat) (left : Nat) : RetryOutcome :=
  let res := responses n
  if res.statusCode == 429 then
    match left with
    | 0 => .retriesExhausted
    | left' + 1 =>
      retryRequestGo responses expectedStatusCode opts (n + 1)
        (delays ++ [opts.minTimeout * opts.factor ^ n]) left'
  else if res.statusCode != expectedStatusCode then
    .unexpectedStatus res.statusCode res.body
  else
    .success res n delays

/-- `LuisApiClient.retryRequest` against a stream of responses (the
response to the `n`-th attempt is `responses n`). -/
def retryRequest (responses : Nat → HttpResponse) (expectedStatusCode : Int) :
    RetryOutcome :=
  retryRequestGo responses expectedStatusCode RETRY_OPTS 0 [] RETRY_OPTS.retries

/-! ## The training poll loop (`LuisTrainer.train`) -/

/-- `LuisApi.TrainingStatuses`: `Success = 0, Fail = 1, UpToDate = 2,
InProgress = 3`. -/
inductive TrainingStatusEnum where
  | success
  | fail
  | upToDate
  | inProgress
  deriving DecidableEq, Repr

/-- `LuisApi.ModelTrainingStatus` (the `failureReason` field is present only
for failed models). -/
structure ModelTrainingStatus where
  modelId : String
  status : TrainingStatusEnum
  exampleCount : Int
  failureReason : Option String
  deriving DecidableEq, Repr

/-- A model status is finished when it is `Success`, `UpToDate` or `Fail`. -/
def isFinishedModel (m : ModelTrainingStatus) : Bool :=
  m.status == .success || m.status == .upToDate || m.status == .fail

/-- The overall training outcome: convergence, or failure carrying each
failed model's id and failure reason. -/
inductive TrainResult where
  | converged
  | failed (models : List (String × Option String))
  deriving DecidableEq, Repr

/-- The decision taken by `waitForTraining` on a fully finished status
list. -/
def trainDecision (ts : List ModelTrainingStatus) : TrainResult :=
  let failedModels := ts.filter (fun m => m.status == .fail)
  if failedModels.length ≠ 0 then
    .failed (failedModels.map (fun m => (m.modelId, m.failureReason)))
  else
    .converged

/-- The polling loop of `waitForTraining`: poll `statuses k`, keep polling
while some model is unfinished, and decide once every model is finished.
Answers the number of polls performed together with the outcome; `none`
when the fuel runs out while still polling. -/
def trainLoop (statuses : Nat → List ModelTrainingStatus) :
    Nat → Nat → Option (Nat × TrainResult)
  | _, 0 => none
  | k, fuel + 1 =>
    let ts := statuses k
    let finishedModels := ts.filter isFinishedModel
    if finishedModels.length < ts.length then
      trainLoop statuses (k + 1) fuel
    else
      some (k + 1, trainDecision ts)

/-- `LuisTrainer.train`'s monitor (modulo the start-training call): poll
from the first tick with the given fuel. -/
def trainMonitor (statuses : Nat → List ModelTrainingStatus) (fuel : Nat) :
    Option (Nat × TrainResult) :=
  trainLoop statuses 0 fuel

/-! ## Prediction comparison (`LuisTrainer.checkPredictions`) -/

/-- Codepoint-wise lexicographic comparison of character lists, embedding
the `localeCompare` tie-break of the sort (locale effects aside, any fixed
total order yields the same top-score set). -/
def charListLe : List Char → List Char → Bool
  | [], _ => true
  | _ :: _, [] => false
  | a :: as, b :: bs =>
    if a.toNat < b.toNat then true
    else if b.toNat < a.toNat then false
    else charListLe as bs

/-- Lexicographic order on strings by codepoints. -/
def nameLe (a b : String) : Bool :=
  charListLe a.data b.data

/-- The sort order of `getTopPredictedIntents`: descending score, ties by
ascending name. -/
def intentLe (a b : IntentPrediction) : Prop :=
  b.score < a.score ∨ (b.score = a.score ∧ nameLe a.name b.name = true)

instance : DecidableRel intentLe := fun _ _ =>
  inferInstanceAs (Decidable (_ ∨ _))

instance : IsTotal IntentPrediction intentLe where
  total a b := by
    have htot : ∀ as bs : List Char, charListLe as bs = true ∨ charListLe bs as = true := by
      intro as
      induction as with
      | nil => intro bs; left; rfl
      | cons a as ih =>
        intro bs
        cases bs with
        | nil => right; rfl
        | cons b bs =>
          rw [charListLe, charListLe]
          by_cases h1 : a.toNat < b.toNat
          · left; simp [h1]
          · by_cases h2 : b.toNat < a.toNat
            · right; simp [h1, h2]
            · rcases ih bs with h | h <;> simp [h1, h2, h]
    rcases lt_trichotomy a.score b.score with h | h | h
    · exact Or.inr (Or.inl h)
    · rcases htot a.name.data b.name.data with hn | hn
      · exact Or.inl (Or.inr ⟨h.symm, hn⟩)
      · exact Or.inr (Or.inr ⟨h, hn⟩)
    · exact Or.inl (Or.inl h)

instance : IsTrans IntentPrediction intentLe where
  trans a b c hab hbc := by
    have htrans : ∀ as bs cs : List Char,
        charListLe as bs = true → charListLe bs cs = true →
        charListLe as cs = true := by
      intro as
      induction as with
      | nil => intro bs cs _ _; rfl
      | cons a as ih =>
        intro bs cs hab hbc
        cases bs with
        | nil => rw [charListLe] at hab; exact absurd hab (by simp)
        | cons b bs =>
          cases cs with
          | nil => rw [charListLe] at hbc; exact absurd hbc (by simp)
          | cons c cs =>
            rw [charListLe] at hab hbc ⊢
            by_cases h1 : a.toNat < b.toNat <;> by_cases h2 : b.toNat < c.toNat <;>
              by_cases h3 : a.toNat < c.toNat <;>
              simp [h1, h2, h3] at hab hbc ⊢ <;>
              first
              | omega
              | (exact ih bs cs hab.2 hbc.2)
              | (refine ⟨by omega, ih bs cs hab.2 hbc.2⟩)
    rcases hab with h1 | ⟨h1, h1n⟩ <;> rcases hbc with h2 | ⟨h2, h2n⟩
    · exact Or.inl (h2.trans h1)
    · exact Or.inl (lt_of_le_of_lt (le_of_eq h2) h1)
    · exact Or.inl (lt_of_lt_of_le h2 (le_of_eq h1))
    · exact Or.inr ⟨h2.trans h1, htrans _ _ _ h1n h2n⟩

/-- `getTopPredictedIntents`: sort the predictions by descending score
(ties by name) and keep every prediction sharing the first (maximum)
score. -/
def getTopPredictedIntents (preds : List IntentPrediction) : List IntentPrediction :=
  match List.insertionSort intentLe preds with
  | [] => []
  | top :: rest => (top :: rest).filter (fun p => p.score == top.score)

/-- The intent part of a `PredictionError` for one example: a hard mismatch
(`ambiguousPredictedIntent = false`), an ambiguity
(`ambiguousPredictedIntent = true`), or no intent error. -/
inductive IntentCheck where
  | mismatch (intentPredictions : List IntentPrediction)
  | ambiguous (intentPredictions : List IntentPrediction)
  | ok
  deriving DecidableEq, Repr

/-- The intent comparison of `checkPredictions` for one example. -/
def checkExampleIntent (ex : ExampleGET) : IntentCheck :=
  let top := getTopPredictedIntents ex.intentPredictions
  if (top.findIdx? (fun p => p.name == ex.intentLabel)).isNone then
    .mismatch top
  else if top.length > 1 then
    .ambiguous top
  else
    .ok

/-- `matchPredictedEntities`: the labeled entities minus (lodash deep
equality) the predicted entities must leave nothing. -/
def matchPredictedEntities (ex : ExampleGET) : Bool :=
  (differenceWith ex.entityLabels ex.entityPredictions jsDeepEqual).length == 0

/-! ## The paginated read-all loop (`LuisApiClient.getAllExamples`) -/

/-- `MAX_EXAMPLES_COUNT`: page size of `getExamples`. -/
def MAX_EXAMPLES_COUNT : Nat := 100

/-- `MAX_PARALLEL_EXAMPLES_REQUESTS`: pages fetched per fan-out round. -/
def MAX_PARALLEL_EXAMPLES_REQUESTS : Nat := 15

/-- The `some`-with-push scan of one fan-out round: walk the fetched pages
in ascending offset order, keep each non-empty page, and stop at the first
page shorter than the page size. Answers the kept pages and whether a short
page was found. -/
def scanBunches : List (List ExampleGET) → List (List ExampleGET) × Bool
  | [] => ([], false)
  | b :: bs =>
    let kept := if b.length ≠ 0 then [b] else []
    if b.length < MAX_EXAMPLES_COUNT then
      (kept, true)
    else
      let (rest, found) := scanBunches bs
      (kept ++ rest, found)

/-- The pages of the fan-out round starting at offset `skip`, as fetched
from the page function `f` (`f s` is the page at offset `s`). -/
def roundPages (f : Nat → List ExampleGET) (skip : Nat) : List (List ExampleGET) :=
  (List.range MAX_PARALLEL_EXAMPLES_REQUESTS).map
    (fun i => f (skip + i * MAX_EXAMPLES_COUNT))

/-- `getExamplesBunch`: scan one round; recurse on the next offset window
while no short page has been found. `none` when the fuel (number of rounds)
runs out. -/
def getAllExamplesGo (f : Nat → List ExampleGET) : Nat → Nat → Option (List ExampleGET)
  | 0, _ => none
  | fuel + 1, skip =>
    let (kept, found) := scanBunches (roundPages f skip)
    if found then
      some kept.flatten
    else
      (getAllExamplesGo f fuel
        (skip + MAX_PARALLEL_EXAMPLES_REQUESTS * MAX_EXAMPLES_COUNT)).map
        (fun rest => kept.flatten ++ rest)

/-- `getAllExamples` over the page function `f`, with a bound on the number
of fan-out rounds. -/
def getAllExamples (f : Nat → List ExampleGET) (fuel : Nat) : Option (List ExampleGET) :=
  getAllExamplesGo f fuel 0

/-! ## Applying a reconciliation diff

Used to state the idempotence claim: the remote state obtained by removing
`toDelete` and adding `toCreate`. Creation is modelled by an abstract
function from the created payload back to a fetched item (the service
assigns ids and so on); the theorems only assume it preserves the compared
fields. -/

/-- Remove the items selected for deletion from the remote intents. -/
def removeIntents (oldIntents toDelete : List IntentGET) : List IntentGET :=
  oldIntents.filter (fun r => !toDelete.contains r)

/-- The remote intents after applying the diff, `assign` being the
service-side creation (id assignment). -/
def applyIntentsUpdate (oldIntents : List IntentGET) (intents : List IntentPOST)
    (assign : IntentPOST → IntentGET) : List IntentGET :=
  removeIntents oldIntents (intentsToBeDeleted oldIntents intents) ++
  (intentsToBeCreated intents oldIntents).map assign

/-- Remove the examples selected for deletion from the remote examples. -/
def removeExamples (oldExamples toDelete : List ExampleGET) : List ExampleGET :=
  oldExamples.filter (fun r => !toDelete.contains r)

/-- The remote examples after applying the diff, `reify` being the
service-side creation and refetch of an uploaded example. -/
def applyExamplesUpdate (oldExamples : List ExampleGET) (modelExamples : List Utterance)
    (reify : Utterance → ExampleGET) : List ExampleGET :=
  removeExamples oldExamples (examplesToBeDeleted oldExamples modelExamples) ++
  (examplesToBeCreatedSel modelExamples oldExamples).map reify

/-! ## Definitions modelled from the spec's words

These definitions follow the specification text, not the source; they exist
only to be compared against the embedded code. -/

/-- Modelled from the spec: the example equality claimed for creation
eligibility — same text, same intent, and the entity sets equal
order-independently by `{entityName, startChar, endChar}` after
tokenizer-based span resolution of the locally authored token indices (the
remote labels are read at their character-index fields). -/
def specEqExample (a : Utterance) (b : ExampleGET) : Bool :=
  a.text == b.text && a.intent == b.intentLabel &&
  (match a.entities.mapM (fun e =>
      (findEntity a.text e.startPos e.endPos).toOption.map
        (fun fe => ((JVal.str e.entity, JVal.num fe.startChar, JVal.num fe.endChar) :
          JVal × JVal × JVal))) with
   | none => false
   | some localTriples =>
     localTriples.isPerm (b.entityLabels.map (fun l =>
       (jsGet l "entityName", jsGet l "startCharIndex", jsGet l "endCharIndex"))))

/-- Modelled from the spec: the predicted entity set supersets the labeled
entity set — every labeled entity appears among the predicted ones, a
labeled entity (token-indexed, per `EntityLabelExampleGET`) matching a
prediction when the entity names agree and the label's token span resolves
to the prediction's character span. -/
def specEntitySuperset (ex : ExampleGET) : Bool :=
  ex.entityLabels.all (fun l =>
    ex.entityPredictions.any (fun p =>
      jsStrictEq (jsGet l "entityName") (jsGet p "entityName") &&
      (match jsGet l "startTokenIndex", jsGet l "endTokenIndex" with
       | .num s, .num e =>
         match findEntity ex.text s e with
         | .ok fe =>
           jsStrictEq (.num fe.startChar) (jsGet p "startIndex") &&
           jsStrictEq (.num fe.endChar) (jsGet p "endIndex")
         | .error _ => false
       | _, _ => false)))

/-- The shape of a remote example entity label per the repository's
declared interface `LuisApi.EntityLabelExampleGET`. -/
def labelShapedGET (l : JObj) : Prop :=
  ∃ n s e, l = [("entityName", JVal.str n), ("startTokenIndex", JVal.num s),
    ("endTokenIndex", JVal.num e)]

/-- The shape of a remote entity prediction per the repository's declared
interface `LuisApi.EntityPrediction`. -/
def predShaped (p : JObj) : Prop :=
  ∃ n s e w, p = [("entityName", JVal.str n), ("startIndex", JVal.num s),
    ("endIndex", JVal.num e), ("phrase", JVal.str w)]

/-! ## General lemmas about the embedded lodash operations -/

theorem mem_differenceWith {l₁ : List α} {l₂ : List β} {cmp : α → β → Bool} {a : α} :
    a ∈ differenceWith l₁ l₂ cmp ↔ a ∈ l₁ ∧ ∀ b ∈ l₂, cmp a b = false := by
  simp [differenceWith, List.mem_filter, List.any_eq_false]

theorem differenceWith_eq_filter (l₁ : List α) (l₂ : List β) (cmp : α → β → Bool) :
    differenceWith l₁ l₂ cmp = l₁.filter (fun a => !(l₂.any (cmp a))) := rfl

/-! ## General list lemmas -/

theorem head?_dropWhile {p : α → Bool} :
    ∀ {l : List α} {c : α}, (l.dropWhile p).head? = some c → p c = false := by
  intro l
  induction l with
  | nil => intro c h; simp [List.dropWhile] at h
  | cons a l ih =>
    intro c h
    by_cases hp : p a
    · rw [List.dropWhile_cons_of_pos hp] at h
      exact ih h
    · rw [List.dropWhile_cons_of_neg hp] at h
      simp at h
      subst h
      simpa using hp

theorem getLast?_of_suffix {l₁ l₂ : List α} (h : l₁ <:+ l₂) (hne : l₁ ≠ []) :
    l₂.getLast? = l₁.getLast? := by
  obtain ⟨t, rfl⟩ := h
  rw [List.getLast?_append_of_ne_nil _ hne]

theorem dropWhile_eq_drop (p : α → Bool) (l : List α) :
    l.dropWhile p = l.drop (l.takeWhile p).length := by
  induction l with
  | nil => rfl
  | cons a l ih =>
    by_cases hp : p a
    · rw [List.dropWhile_cons_of_pos hp, List.takeWhile_cons_of_pos hp]
      simpa using ih
    · rw [List.dropWhile_cons_of_neg hp, List.takeWhile_cons_of_neg hp]
      rfl

theorem prefix_take_eq {l₁ l₂ : List α} (h : l₁ <+: l₂) : l₂.take l₁.length = l₁ :=
  (List.prefix_iff_eq_take.mp h).symm

/-- Slices inside a prefix agree with slices of the whole list. -/
theorem prefix_slice_eq {l₁ l₂ : List α} (h : l₁ <+: l₂) {a n : Nat}
    (hn : a + n ≤ l₁.length) : (l₁.drop a).take n = (l₂.drop a).take n := by
  conv_lhs => rw [List.prefix_iff_eq_take.mp h]
  rw [List.drop_take]
  rw [List.take_take]
  congr 1
  omega

/-! ## Tokenizer lemmas -/

theorem rtrim_prefix (l : List Char) : rtrim l <+: l := by
  have hsuf : (rtrim l).reverse <:+ l.reverse := by
    rw [rtrim, List.reverse_reverse]
    exact List.dropWhile_suffix isSpace
  exact List.reverse_suffix.mp hsuf

theorem rtrim_getLast {l : List Char} {c : Char} (h : (rtrim l).getLast? = some c) :
    isSpace c = false := by
  rw [rtrim, List.getLast?_reverse] at h
  exact head?_dropWhile h

theorem jsTrim_of_all_space {l : List Char} (h : ∀ c ∈ l, isSpace c) : jsTrim l = [] := by
  rw [jsTrim, List.dropWhile_eq_nil_iff.mpr h]
  rfl

/-- C3 concrete check: the tokenizer of `"Hello, world!"`. -/
theorem splitSentence_hello :
    splitSentenceByTokens "Hello, world!" =
      .ok [⟨"Hello", 0, 4⟩, ⟨",", 5, 5⟩, ⟨"world", 7, 11⟩, ⟨"!", 12, 12⟩] := rfl

/-- C3: the tokenizer yields the empty token sequence on empty and on
all-whitespace input, and segments `"Hello, world!"` into exactly
`"Hello"`, `","`, `"world"`, `"!"` at character offsets `(0,4)`, `(5,5)`,
`(7,11)`, `(12,12)`. -/
theorem tokenizer_contract :
    splitSentenceByTokens "" = .ok [] ∧
    (∀ s : String, (∀ c ∈ s.data, isSpace c) → splitSentenceByTokens s = .ok []) ∧
    splitSentenceByTokens "Hello, world!" =
      .ok [⟨"Hello", 0, 4⟩, ⟨",", 5, 5⟩, ⟨"world", 7, 11⟩, ⟨"!", 12, 12⟩] := by
  refine ⟨rfl, ?_, splitSentence_hello⟩
  intro s hs
  rw [splitSentenceByTokens, if_pos]
  simp [jsTrim_of_all_space hs]

/-- Witness for the all-whitespace part of `tokenizer_contract` at the
concrete input `" \t "`. -/
theorem tokenizer_contract_witness : splitSentenceByTokens " \t " = .ok [] :=
  tokenizer_contract.2.1 " \t " (by decide)

/-- Explicit unfolding of one loop iteration of `goTok` on a non-empty
sentence with fuel left. -/
theorem goTok_succ (fuel : Nat) (x : Char) (xs : List Char) (i : Nat) :
    goTok (fuel + 1) (x :: xs) i =
      (match (x :: xs).drop ((x :: xs).takeWhile isSpace).length with
       | [] => .error .tokenizerError
       | c :: rest =>
         if isWordChar c then
           match goTok fuel (rest.dropWhile isWordChar)
               (i + ((x :: xs).takeWhile isSpace).length +
                (rest.takeWhile isWordChar).length + 1) with
           | .error e => .error e
           | .ok ts => .ok (⟨⟨c :: rest.takeWhile isWordChar⟩,
               i + ((x :: xs).takeWhile isSpace).length,
               i + ((x :: xs).takeWhile isSpace).length +
                 (rest.takeWhile isWordChar).length⟩ :: ts)
         else
           match goTok fuel rest (i + ((x :: xs).takeWhile isSpace).length + 1) with
           | .error e => .error e
           | .ok ts => .ok (⟨⟨[c]⟩, i + ((x :: xs).takeWhile isSpace).length,
               i + ((x :: xs).takeWhile isSpace).length⟩ :: ts)) := rfl

/-- The word branch of one `goTok` iteration. -/
theorem goTok_word (fuel : Nat) (x : Char) (xs : List Char) (i : Nat) (c : Char)
    (rest : List Char)
    (hdrop : (x :: xs).drop ((x :: xs).takeWhile isSpace).length = c :: rest)
    (hw : isWordChar c = true) :
    goTok (fuel + 1) (x :: xs) i =
      (match goTok fuel (rest.dropWhile isWordChar)
          (i + ((x :: xs).takeWhile isSpace).length +
           (rest.takeWhile isWordChar).length + 1) with
       | .error e => .error e
       | .ok ts => .ok (⟨⟨c :: rest.takeWhile isWordChar⟩,
           i + ((x :: xs).takeWhile isSpace).length,
           i + ((x :: xs).takeWhile isSpace).length +
             (rest.takeWhile isWordChar).length⟩ :: ts)) := by
  rw [goTok_succ, hdrop]
  simp only [hw, if_true]

/-- The non-word branch of one `goTok` iteration. -/
theorem goTok_nonword (fuel : Nat) (x : Char) (xs : List Char) (i : Nat) (c : Char)
    (rest : List Char)
    (hdrop : (x :: xs).drop ((x :: xs).takeWhile isSpace).length = c :: rest)
    (hw : isWordChar c = false) :
    goTok (fuel + 1) (x :: xs) i =
      (match goTok fuel rest (i + ((x :: xs).takeWhile isSpace).length + 1) with
       | .error e => .error e
       | .ok ts => .ok (⟨⟨[c]⟩, i + ((x :: xs).takeWhile isSpace).length,
           i + ((x :: xs).takeWhile isSpace).length⟩ :: ts)) := by
  rw [goTok_succ, hdrop]
  simp only [hw, Bool.false_eq_true, if_false]

/-- The scanning loop cannot fail: with adequate fuel, on input whose last
character is not whitespace (as guaranteed by the right trim), every
iteration classifies a token. -/
theorem goTok_ok : ∀ (fuel : Nat) (cs : List Char) (i : Nat),
    cs.length ≤ fuel →
    (∀ c, cs.getLast? = some c → isSpace c = false) →
    ∃ ts, goTok fuel cs i = .ok ts := by
  intro fuel
  induction fuel with
  | zero =>
    intro cs i hlen _
    obtain rfl : cs = [] := List.eq_nil_of_length_eq_zero (Nat.le_zero.mp hlen)
    exact ⟨[], rfl⟩
  | succ fuel ih =>
    intro cs i hlen hlast
    cases cs with
    | nil => exact ⟨[], rfl⟩
    | cons x xs =>
      obtain ⟨cl, hcl⟩ : ∃ cl, (x :: xs).getLast? = some cl := by
        cases h : (x :: xs).getLast? with
        | none => rw [List.getLast?_eq_none_iff] at h; exact absurd h (by simp)
        | some cl => exact ⟨cl, rfl⟩
      have hklt : ((x :: xs).takeWhile isSpace).length < (x :: xs).length := by
        rcases lt_or_eq_of_le (List.IsPrefix.length_le (List.takeWhile_prefix isSpace)) with h | h
        · exact h
        · exfalso
          have htake : (x :: xs).takeWhile isSpace = x :: xs :=
            List.IsPrefix.eq_of_length (List.takeWhile_prefix isSpace) h
          have hmem : cl ∈ (x :: xs).takeWhile isSpace := by
            rw [htake]; exact List.mem_of_mem_getLast? hcl
          have := List.mem_takeWhile_imp hmem
          rw [hlast cl hcl] at this
          exact absurd this (by simp)
      obtain ⟨c, rest, hdrop⟩ : ∃ c rest,
          (x :: xs).drop ((x :: xs).takeWhile isSpace).length = c :: rest := by
        cases hd : (x :: xs).drop ((x :: xs).takeWhile isSpace).length with
        | nil => exact absurd (List.drop_eq_nil_iff.mp hd) (by omega)
        | cons c rest => exact ⟨c, rest, rfl⟩
      have hlast' : ∀ (l' : List Char), l' <:+ (x :: xs) →
          ∀ c', l'.getLast? = some c' → isSpace c' = false := by
        intro l' hsuf c' hl'
        have hne' : l' ≠ [] := by intro h; rw [h] at hl'; simp at hl'
        exact hlast c' ((getLast?_of_suffix hsuf hne') ▸ hl')
      have hsufcr : (c :: rest) <:+ (x :: xs) := hdrop ▸ List.drop_suffix _ _
      have hsufrest : rest <:+ (x :: xs) :=
        List.IsSuffix.trans (List.suffix_cons c rest) hsufcr
      have hlenrest : rest.length + 1 + ((x :: xs).takeWhile isSpace).length =
          xs.length + 1 := by
        have := congrArg List.length hdrop
        rw [List.length_drop] at this
        simp only [List.length_cons] at this hklt
        omega
      by_cases hw : isWordChar c
      · have hsufdw : rest.dropWhile isWordChar <:+ (x :: xs) :=
          List.IsSuffix.trans (List.dropWhile_suffix isWordChar) hsufrest
        have hlendw : (rest.dropWhile isWordChar).length ≤ fuel := by
          have h1 : (rest.dropWhile isWordChar).length ≤ rest.length :=
            List.IsSuffix.length_le (List.dropWhile_suffix isWordChar)
          simp only [List.length_cons] at hlen
          omega
        obtain ⟨ts, hts⟩ := ih (rest.dropWhile isWordChar)
          (i + ((x :: xs).takeWhile isSpace).length + (rest.takeWhile isWordChar).length + 1)
          hlendw (hlast' _ hsufdw)
        rw [goTok_word fuel x xs i c rest hdrop hw, hts]
        exact ⟨_, rfl⟩
      · have hlenr : rest.length ≤ fuel := by
          simp only [List.length_cons] at hlen
          omega
        obtain ⟨ts, hts⟩ := ih rest
          (i + ((x :: xs).takeWhile isSpace).length + 1) hlenr (hlast' _ hsufrest)
        rw [goTok_nonword fuel x xs i c rest hdrop (by simpa using hw), hts]
        exact ⟨_, rfl⟩

theorem drop_shift {l₁ l₂ : List α} {m : Nat} (h : l₁.drop m = l₂) (n : Nat) (hn : m ≤ n) :
    l₁.drop n = l₂.drop (n - m) := by
  rw [← h, List.drop_drop]
  congr 1
  omega

/-- Soundness of the scanned tokens: every produced token starts at or
after the cursor, has a well-ordered inclusive span lying inside the
scanned suffix, and reads back its own text at its character span. -/
theorem goTok_spec : ∀ (fuel : Nat) (cs : List Char) (i : Nat) (ts : List Token),
    goTok fuel cs i = .ok ts →
    ∀ t ∈ ts, i ≤ t.startChar ∧ t.startChar ≤ t.endChar ∧
      t.endChar + 1 ≤ i + cs.length ∧
      (cs.drop (t.startChar - i)).take (t.endChar + 1 - t.startChar) = t.token.data := by
  intro fuel
  induction fuel with
  | zero =>
    intro cs i ts h t ht
    cases cs with
    | nil =>
      simp only [goTok, Except.ok.injEq] at h
      subst h
      simp at ht
    | cons x xs => simp [goTok] at h
  | succ fuel ih =>
    intro cs i ts h t ht
    cases cs with
    | nil =>
      simp only [goTok, Except.ok.injEq] at h
      subst h
      simp at ht
    | cons x xs =>
      cases hd : (x :: xs).drop ((x :: xs).takeWhile isSpace).length with
      | nil =>
        rw [goTok_succ, hd] at h
        exact absurd h (by simp)
      | cons c rest =>
        have hklt : ((x :: xs).takeWhile isSpace).length < (x :: xs).length := by
          by_contra hge
          rw [List.drop_eq_nil_iff.mpr (by omega)] at hd
          exact absurd hd (by simp)
        have hklen : ((x :: xs).takeWhile isSpace).length + (rest.length + 1) =
            xs.length + 1 := by
          have := congrArg List.length hd
          rw [List.length_drop] at this
          simp only [List.length_cons] at this hklt ⊢
          omega
        by_cases hw : isWordChar c
        · rw [goTok_word fuel x xs i c rest hd hw] at h
          cases hgo : goTok fuel (rest.dropWhile isWordChar)
              (i + ((x :: xs).takeWhile isSpace).length +
               (rest.takeWhile isWordChar).length + 1) with
          | error e => rw [hgo] at h; exact absurd h (by simp)
          | ok ts' =>
            rw [hgo] at h
            simp only [Except.ok.injEq] at h
            subst h
            have hrun : (rest.takeWhile isWordChar).length ≤ rest.length :=
              List.IsPrefix.length_le (List.takeWhile_prefix isWordChar)
            rcases List.mem_cons.mp ht with rfl | htail
            · refine ⟨Nat.le_add_right _ _, by simp, ?_, ?_⟩
              · simp only [List.length_cons]
                omega
              · have h1 : i + ((x :: xs).takeWhile isSpace).length - i =
                    ((x :: xs).takeWhile isSpace).length := by omega
                have h2 : i + ((x :: xs).takeWhile isSpace).length +
                    (rest.takeWhile isWordChar).length + 1 -
                    (i + ((x :: xs).takeWhile isSpace).length) =
                    (rest.takeWhile isWordChar).length + 1 := by omega
                simp only [h1, h2, hd]
                rw [List.take_succ_cons]
                rw [prefix_take_eq (List.takeWhile_prefix isWordChar)]
            · have hdw : rest.drop (rest.takeWhile isWordChar).length =
                  rest.dropWhile isWordChar := (dropWhile_eq_drop isWordChar rest).symm
              obtain ⟨hi2, hse, hend, hslice⟩ := ih _ _ _ hgo t htail
              have hdwlen : (rest.dropWhile isWordChar).length =
                  rest.length - (rest.takeWhile isWordChar).length := by
                rw [← hdw, List.length_drop]
              refine ⟨by omega, hse, ?_, ?_⟩
              · simp only [List.length_cons]
                omega
              · rw [← hslice]
                congr 1
                have s1 := drop_shift hd (t.startChar - i) (by omega)
                rw [s1]
                have s2 : t.startChar - i - ((x :: xs).takeWhile isSpace).length =
                    (t.startChar - i - ((x :: xs).takeWhile isSpace).length - 1) + 1 := by
                  omega
                rw [s2, List.drop_succ_cons]
                have s3 := drop_shift hdw
                  (t.startChar - i - ((x :: xs).takeWhile isSpace).length - 1) (by omega)
                rw [s3]
                congr 1
                omega
        · rw [goTok_nonword fuel x xs i c rest hd (by simpa using hw)] at h
          cases hgo : goTok fuel rest
              (i + ((x :: xs).takeWhile isSpace).length + 1) with
          | error e => rw [hgo] at h; exact absurd h (by simp)
          | ok ts' =>
            rw [hgo] at h
            simp only [Except.ok.injEq] at h
            subst h
            rcases List.mem_cons.mp ht with rfl | htail
            · refine ⟨Nat.le_add_right _ _, le_rfl, ?_, ?_⟩
              · simp only [List.length_cons]
                omega
              · have h1 : i + ((x :: xs).takeWhile isSpace).length - i =
                    ((x :: xs).takeWhile isSpace).length := by omega
                have h2 : i + ((x :: xs).takeWhile isSpace).length + 1 -
                    (i + ((x :: xs).takeWhile isSpace).length) = 1 := by omega
                simp only [h1, h2, hd]
                rfl
            · obtain ⟨hi2, hse, hend, hslice⟩ := ih _ _ _ hgo t htail
              refine ⟨by omega, hse, ?_, ?_⟩
              · simp only [List.length_cons]
                omega
              · rw [← hslice]
                congr 1
                have s1 := drop_shift hd (t.startChar - i) (by omega)
                rw [s1]
                have s2 : t.startChar - i - ((x :: xs).takeWhile isSpace).length =
                    (t.startChar - i - ((x :: xs).takeWhile isSpace).length - 1) + 1 := by
                  omega
                rw [s2, List.drop_succ_cons]
                congr 1
                omega

/-- The tokenizer never fails. -/
theorem splitSentenceByTokens_ok (s : String) :
    splitSentenceByTokens s = .ok (tokensOf s) := by
  have : ∃ ts, splitSentenceByTokens s = .ok ts := by
    rw [splitSentenceByTokens]
    by_cases h : s.data.isEmpty || (jsTrim s.data).isEmpty
    · rw [if_pos h]; exact ⟨[], rfl⟩
    · rw [if_neg h]
      exact goTok_ok _ _ _ le_rfl (fun c hc => rtrim_getLast hc)
  obtain ⟨ts, hts⟩ := this
  rw [hts, tokensOf, hts]

/-- Every token of a sentence has a well-ordered span inside the sentence
and reads back its own text at that span. -/
theorem tokensOf_spec (s : String) :
    ∀ t ∈ tokensOf s, t.startChar ≤ t.endChar ∧
      t.endChar + 1 ≤ s.data.length ∧
      (s.data.drop t.startChar).take (t.endChar + 1 - t.startChar) = t.token.data := by
  intro t ht
  have h := splitSentenceByTokens_ok s
  rw [splitSentenceByTokens] at h
  by_cases hc : s.data.isEmpty || (jsTrim s.data).isEmpty
  · rw [if_pos hc] at h
    simp only [Except.ok.injEq] at h
    rw [← h] at ht
    simp at ht
  · rw [if_neg hc] at h
    obtain ⟨h0, hse, hend, hslice⟩ := goTok_spec _ _ _ _ h t ht
    simp only [Nat.zero_add, Nat.sub_zero] at hend hslice
    have hpre : rtrim s.data <+: s.data := rtrim_prefix s.data
    refine ⟨hse, le_trans hend (List.IsPrefix.length_le hpre), ?_⟩
    rw [← hslice]
    exact (prefix_slice_eq hpre (by omega)).symm

/-- Unfolding of `findEntity` through the (never failing) tokenizer. -/
theorem findEntity_unfold (s : String) (p q : Int) :
    findEntity s p q =
      (if p < 0 || p ≥ ((tokensOf s).length : Int) || q < 0 ||
          q ≥ ((tokensOf s).length : Int) then
        .error .rangeError
      else
        match (tokensOf s)[p.toNat]?, (tokensOf s)[q.toNat]? with
        | some st, some en =>
          .ok ⟨jsSlice s st.startChar (en.endChar + 1), st.startChar, en.endChar⟩
        | _, _ => .error .rangeError) := by
  rw [findEntity, splitSentenceByTokens_ok s]

/-- The shape of a successful `findEntity` call at in-range token
indices. -/
theorem findEntity_eq_ok {s : String} {p q : Nat} (hp : p < (tokensOf s).length)
    (hq : q < (tokensOf s).length) :
    findEntity s (p : Int) (q : Int) =
      .ok ⟨jsSlice s ((tokensOf s).get ⟨p, hp⟩).startChar
             (((tokensOf s).get ⟨q, hq⟩).endChar + 1),
           ((tokensOf s).get ⟨p, hp⟩).startChar,
           ((tokensOf s).get ⟨q, hq⟩).endChar⟩ := by
  rw [findEntity_unfold]
  have hcond : ¬((p : Int) < 0 || (p : Int) ≥ ((tokensOf s).length : Int) ||
      (q : Int) < 0 || (q : Int) ≥ ((tokensOf s).length : Int)) = true := by
    simp only [Bool.or_eq_true, decide_eq_true_eq, not_or]
    push_neg
    omega
  rw [if_neg hcond]
  have hpt : (Int.toNat p) = p := Int.toNat_natCast p
  have hqt : (Int.toNat q) = q := Int.toNat_natCast q
  simp only [hpt, hqt]
  rw [List.getElem?_eq_getElem hp, List.getElem?_eq_getElem hq]
  rfl

/-- C5: `findEntity` fails with the range error exactly when an index is
negative or not below the token count, and succeeds otherwise. -/
theorem findEntity_range_contract (s : String) (p q : Int) :
    ((p < 0 ∨ ((tokensOf s).length : Int) ≤ p ∨ q < 0 ∨ ((tokensOf s).length : Int) ≤ q) →
      findEntity s p q = .error .rangeError) ∧
    (¬(p < 0 ∨ ((tokensOf s).length : Int) ≤ p ∨ q < 0 ∨ ((tokensOf s).length : Int) ≤ q) →
      ∃ fe, findEntity s p q = .ok fe) := by
  constructor
  · intro hout
    rw [findEntity_unfold, if_pos]
    simp only [Bool.or_eq_true, decide_eq_true_eq]
    omega
  · intro hin
    push_neg at hin
    obtain ⟨h1, h2, h3, h4⟩ := hin
    have hp : p.toNat < (tokensOf s).length := by omega
    have hq : q.toNat < (tokensOf s).length := by omega
    have hp' : ((p.toNat : Nat) : Int) = p := Int.toNat_of_nonneg (by omega)
    have hq' : ((q.toNat : Nat) : Int) = q := Int.toNat_of_nonneg (by omega)
    have hok := findEntity_eq_ok hp hq
    rw [hp', hq'] at hok
    exact ⟨_, hok⟩

/-- Witness for `findEntity_range_contract`: at `"Hello, world!"`, index
pair `(20, 0)` is rejected with the range error and pair `(2, 2)`
succeeds. -/
theorem findEntity_range_contract_witness :
    findEntity "Hello, world!" 20 0 = .error .rangeError ∧
    ∃ fe, findEntity "Hello, world!" 2 2 = .ok fe := by
  constructor
  · exact (findEntity_range_contract "Hello, world!" 20 0).1 (by right; left; decide)
  · exact (findEntity_range_contract "Hello, world!" 2 2).2 (by decide)

/-- C4 counterexample: on `"Hello, world!"` with token indices `(1, 2)`
(tokens `","` and `"world"`), the resolved span's substring is `", world"`
while the concatenation of the covered tokens is `",world"`: the claimed
round-trip equality fails because of the whitespace between the covered
tokens. -/
theorem findEntity_concat_counterexample :
    findEntity "Hello, world!" 1 2 = .ok ⟨", world", 5, 11⟩ ∧
    String.join ((((tokensOf "Hello, world!").drop 1).take 2).map Token.token) =
      ",world" ∧
    (", world" : String) ≠ ",world" :=
  ⟨rfl, rfl, by decide⟩

/-- C4 amended: for in-range token indices, `findEntity` succeeds with the
span from the start token's first character to the end token's last
character; each single token reads back exactly its own text at its own
span (so the round-trip equality holds for single-token spans), but the
substring of a multi-token span also contains the characters lying between
the covered tokens. -/
theorem findEntity_span_amended (s : String) (p q : Nat)
    (hp : p < (tokensOf s).length) (hq : q < (tokensOf s).length) :
    ∃ fe, findEntity s (p : Int) (q : Int) = .ok fe ∧
      fe.startChar = ((tokensOf s).get ⟨p, hp⟩).startChar ∧
      fe.endChar = ((tokensOf s).get ⟨q, hq⟩).endChar ∧
      (∀ j, ∀ hj : j < (tokensOf s).length,
        jsSlice s ((tokensOf s).get ⟨j, hj⟩).startChar
          (((tokensOf s).get ⟨j, hj⟩).endChar + 1) = ((tokensOf s).get ⟨j, hj⟩).token) ∧
      (p = q → fe.word = ((tokensOf s).get ⟨p, hp⟩).token) := by
  have hone : ∀ j, ∀ hj : j < (tokensOf s).length,
      jsSlice s ((tokensOf s).get ⟨j, hj⟩).startChar
        (((tokensOf s).get ⟨j, hj⟩).endChar + 1) = ((tokensOf s).get ⟨j, hj⟩).token := by
    intro j hj
    obtain ⟨_, _, hslice⟩ := tokensOf_spec s ((tokensOf s).get ⟨j, hj⟩)
      (List.get_mem _ j hj)
    rw [jsSlice]
    rw [hslice]
  refine ⟨_, findEntity_eq_ok hp hq, rfl, rfl, hone, ?_⟩
  intro hpq
  subst hpq
  exact hone p hp

/-- Witness for `findEntity_span_amended` at `"Hello, world!"` with the
single-token span `(2, 2)`: the resolved word is exactly the token
`"world"`. -/
theorem findEntity_span_amended_witness :
    ∃ fe, findEntity "Hello, world!" (2 : Nat) (2 : Nat) = .ok fe ∧ fe.word = "world" := by
  obtain ⟨fe, hok, _, _, _, hword⟩ :=
    findEntity_span_amended "Hello, world!" 2 2 (by decide) (by decide)
  exact ⟨fe, hok, by rw [hword rfl]; rfl⟩

/-! ## Retrying transport lemmas -/

/-- Exhaustion: when every attempt up to the remaining budget is throttled,
the retry loop fails with the distinguishable exhaustion error. -/
theorem retryRequestGo_exhaust (responses : Nat → HttpResponse) (e : Int) :
    ∀ (left n : Nat) (delays : List Nat),
      (∀ m, m ≤ left → (responses (n + m)).statusCode = 429) →
      retryRequestGo responses e RETRY_OPTS n delays left = .retriesExhausted := by
  intro left
  induction left with
  | zero =>
    intro n delays h429
    have h0 := h429 0 le_rfl
    simp only [Nat.add_zero] at h0
    simp only [retryRequestGo]
    rw [if_pos (by simp [h0])]
  | succ left ih =>
    intro n delays h429
    have h0 := h429 0 (Nat.zero_le _)
    simp only [Nat.add_zero] at h0
    simp only [retryRequestGo]
    rw [if_pos (by simp [h0])]
    exact ih (n + 1) _ (fun m hm => by
      rw [show n + 1 + m = n + (m + 1) by omega]
      exact h429 (m + 1) (by omega))

/-- Success after a run of throttled attempts: with `j` leading 429
responses and the expected status on attempt `j`, the loop succeeds after
exactly `j` retries, each preceded by the exponential backoff delay. -/
theorem retryRequestGo_success (responses : Nat → HttpResponse) (e : Int) (he : e ≠ 429) :
    ∀ (j left n : Nat) (delays : List Nat),
      j ≤ left →
      (∀ m, m < j → (responses (n + m)).statusCode = 429) →
      (responses (n + j)).statusCode = e →
      retryRequestGo responses e RETRY_OPTS n delays left =
        .success (responses (n + j)) (n + j)
          (delays ++ (List.range j).map
            (fun m => RETRY_OPTS.minTimeout * RETRY_OPTS.factor ^ (n + m))) := by
  intro j
  induction j with
  | zero =>
    intro left n delays _ _ hok
    simp only [Nat.add_zero] at hok
    rw [retryRequestGo.eq_def]
    rw [if_neg (by simp [hok, he]), if_neg (by simp [hok])]
    simp only [Nat.add_zero, List.range_zero, List.map_nil, List.append_nil]
  | succ j ih =>
    intro left n delays hle h429 hok
    have h0 := h429 0 (Nat.succ_pos _)
    simp only [Nat.add_zero] at h0
    obtain ⟨left', rfl⟩ : ∃ left', left = left' + 1 := ⟨left - 1, by omega⟩
    simp only [retryRequestGo]
    rw [if_pos (by simp [h0])]
    have hstep := ih left' (n + 1)
      (delays ++ [RETRY_OPTS.minTimeout * RETRY_OPTS.factor ^ n]) (by omega)
      (fun m hm => by
        rw [show n + 1 + m = n + (m + 1) by omega]
        exact h429 (m + 1) (by omega))
      (by rw [show n + 1 + j = n + (j + 1) by omega]; exact hok)
    rw [hstep]
    rw [show n + 1 + j = n + (j + 1) by omega]
    have hlist : (List.range (j + 1)).map
        (fun m => RETRY_OPTS.minTimeout * RETRY_OPTS.factor ^ (n + m)) =
        RETRY_OPTS.minTimeout * RETRY_OPTS.factor ^ n ::
        (List.range j).map
          (fun m => RETRY_OPTS.minTimeout * RETRY_OPTS.factor ^ (n + 1 + m)) := by
      rw [List.range_succ_eq_map, List.map_cons, List.map_map]
      simp only [Nat.add_zero]
      have hfun : ((fun m => RETRY_OPTS.minTimeout * RETRY_OPTS.factor ^ (n + m)) ∘
          Nat.succ) =
          (fun m => RETRY_OPTS.minTimeout * RETRY_OPTS.factor ^ (n + 1 + m)) := by
        funext m
        simp only [Function.comp_apply]
        congr 1
        congr 1
        omega
      rw [hfun]
    rw [hlist]
    simp [List.append_assoc]

/-- Immediate failure on an unexpected status after a run of throttled
attempts: with `j` leading 429 responses and a status that is neither 429
nor the expected one on attempt `j`, the loop rejects at that very attempt
with the status code and response body attached, performing no further
retries. -/
theorem retryRequestGo_unexpected (responses : Nat → HttpResponse) (e : Int) :
    ∀ (j left n : Nat) (delays : List Nat),
      j ≤ left →
      (∀ m, m < j → (responses (n + m)).statusCode = 429) →
      (responses (n + j)).statusCode ≠ 429 →
      (responses (n + j)).statusCode ≠ e →
      retryRequestGo responses e RETRY_OPTS n delays left =
        .unexpectedStatus (responses (n + j)).statusCode (responses (n + j)).body := by
  intro j
  induction j with
  | zero =>
    intro left n delays _ _ hne429 hnee
    simp only [Nat.add_zero] at hne429 hnee ⊢
    rw [retryRequestGo.eq_def]
    rw [if_neg (by simp [hne429]), if_pos (by simp [hnee])]
  | succ j ih =>
    intro left n delays hle h429 hne429 hnee
    have h0 := h429 0 (Nat.succ_pos _)
    simp only [Nat.add_zero] at h0
    obtain ⟨left', rfl⟩ : ∃ left', left = left' + 1 := ⟨left - 1, by omega⟩
    simp only [retryRequestGo]
    rw [if_pos (by simp [h0])]
    have hstep := ih left' (n + 1)
      (delays ++ [RETRY_OPTS.minTimeout * RETRY_OPTS.factor ^ n]) (by omega)
      (fun m hm => by
        rw [show n + 1 + m = n + (m + 1) by omega]
        exact h429 (m + 1) (by omega))
      (by rw [show n + 1 + j = n + (j + 1) by omega]; exact hne429)
      (by rw [show n + 1 + j = n + (j + 1) by omega]; exact hnee)
    rw [hstep, show n + 1 + j = n + (j + 1) by omega]

/-- C6: the retrying transport (i) retries throttled (429) requests with
exponential backoff (`1500 · 2ᵏ` before the `(k+1)`-th retry) until the
expected status arrives, (ii) fails with the distinguishable exhaustion
error once responses stay throttled through the whole retry budget of
`RETRY_OPTS.retries = 10`, (iii) fails immediately — consuming only the
first response — when the first response carries any other unexpected
status, attaching the response body, (iv) in particular the response
sequence 429, 429, expected succeeds after exactly 2 retries with delays
1500 ms and 3000 ms, and (v) an unexpected non-429 status arriving after
any run of throttled attempts within the budget also fails the call
immediately at that attempt, with that response's status code and body
attached and no further retries. -/
theorem retryRequest_contract (responses : Nat → HttpResponse) (e : Int) (he : e ≠ 429) :
    ((∀ n, n ≤ RETRY_OPTS.retries → (responses n).statusCode = 429) →
      retryRequest responses e = .retriesExhausted) ∧
    ((responses 0).statusCode ≠ 429 → (responses 0).statusCode ≠ e →
      retryRequest responses e =
        .unexpectedStatus (responses 0).statusCode (responses 0).body) ∧
    (∀ j, j ≤ RETRY_OPTS.retries →
      (∀ m, m < j → (responses m).statusCode = 429) →
      (responses j).statusCode = e →
      retryRequest responses e = .success (responses j) j
        ((List.range j).map (fun m => 1500 * 2 ^ m))) ∧
    ((responses 0).statusCode = 429 → (responses 1).statusCode = 429 →
      (responses 2).statusCode = e →
      retryRequest responses e = .success (responses 2) 2 [1500, 3000]) ∧
    (∀ j, j ≤ RETRY_OPTS.retries →
      (∀ m, m < j → (responses m).statusCode = 429) →
      (responses j).statusCode ≠ 429 →
      (responses j).statusCode ≠ e →
      retryRequest responses e =
        .unexpectedStatus (responses j).statusCode (responses j).body) := by
  refine ⟨?_, ?_, ?_, ?_, ?_⟩
  · intro h429
    exact retryRequestGo_exhaust responses e RETRY_OPTS.retries 0 []
      (fun m hm => by simpa using h429 m hm)
  · intro h1 h2
    rw [retryRequest, retryRequestGo.eq_def]
    rw [if_neg (by simp [h1]), if_pos (by simp [h2])]
  · intro j hj h429 hok
    have := retryRequestGo_success responses e he j RETRY_OPTS.retries 0 [] hj
      (fun m hm => by simpa using h429 m hm) (by simpa using hok)
    simpa [retryRequest] using this
  · intro h0 h1 h2
    have := retryRequestGo_success responses e he 2 RETRY_OPTS.retries 0 [] (by decide)
      (fun m hm => by
        interval_cases m
        · simpa using h0
        · simpa using h1)
      (by simpa using h2)
    simpa [retryRequest, List.range_succ] using this
  · intro j hj h429 hne429 hnee
    have := retryRequestGo_unexpected responses e j RETRY_OPTS.retries 0 [] hj
      (fun m hm => by simpa using h429 m hm) (by simpa using hne429)
      (by simpa using hnee)
    simpa [retryRequest] using this

/-- Witness for `retryRequest_contract`: a concrete response stream that is
throttled twice and then accepted with status 202 succeeds after exactly
two retries with the exponential delays; a stream opening with status 500
fails immediately; an always-throttled stream exhausts the retry budget. -/
theorem retryRequest_contract_witness :
    retryRequest (fun n => if n < 2 then ⟨429, "busy"⟩ else ⟨202, "accepted"⟩) 202 =
      .success ⟨202, "accepted"⟩ 2 [1500, 3000] ∧
    retryRequest (fun _ => ⟨500, "boom"⟩) 202 = .unexpectedStatus 500 "boom" ∧
    retryRequest (fun _ => ⟨429, "busy"⟩) 202 = .retriesExhausted ∧
    retryRequest (fun n => if n = 0 then ⟨429, "busy"⟩ else ⟨500, "boom"⟩) 202 =
      .unexpectedStatus 500 "boom" := by
  refine ⟨?_, ?_, ?_, ?_⟩
  · exact (retryRequest_contract (fun n => if n < 2 then ⟨429, "busy"⟩ else ⟨202, "accepted"⟩)
      202 (by decide)).2.2.2.1 (by decide) (by decide) (by decide)
  · exact (retryRequest_contract (fun _ => ⟨500, "boom"⟩) 202 (by decide)).2.1
      (by decide) (by decide)
  · exact (retryRequest_contract (fun _ => ⟨429, "busy"⟩) 202 (by decide)).1
      (fun n _ => rfl)
  · exact (retryRequest_contract (fun n => if n = 0 then ⟨429, "busy"⟩ else ⟨500, "boom"⟩)
      202 (by decide)).2.2.2.2 1 (by decide)
      (fun m hm => by interval_cases m; rfl) (by decide) (by decide)

/-! ## Training monitor lemmas -/

/-- The decision taken once all models are finished: failure carrying every
failed model's id and failure reason when some model failed, convergence
otherwise. -/
theorem trainDecision_spec (ts : List ModelTrainingStatus) :
    ((∃ m ∈ ts, m.status = .fail) →
      trainDecision ts = .failed ((ts.filter (fun m => m.status == .fail)).map
        (fun m => (m.modelId, m.failureReason)))) ∧
    ((∀ m ∈ ts, m.status ≠ .fail) → trainDecision ts = .converged) := by
  constructor
  · intro ⟨m, hm, hf⟩
    rw [trainDecision, if_pos]
    intro hlen
    rw [List.length_eq_zero] at hlen
    have : m ∈ ts.filter (fun m => m.status == .fail) :=
      List.mem_filter.mpr ⟨hm, by simp [hf]⟩
    rw [hlen] at this
    simp at this
  · intro hok
    rw [trainDecision, if_neg]
    simp only [ne_eq, not_not, List.length_eq_zero]
    rw [List.filter_eq_nil_iff]
    intro m hm
    simpa using hok m hm

/-- The polling loop stops at the first poll whose models are all finished
and applies `trainDecision` to it; every earlier poll had an unfinished
model. -/
theorem trainLoop_spec (statuses : Nat → List ModelTrainingStatus) :
    ∀ (fuel k n : Nat) (res : TrainResult),
      trainLoop statuses k fuel = some (n, res) →
      k < n ∧ (∀ m ∈ statuses (n - 1), isFinishedModel m) ∧
      (∀ j, k ≤ j → j < n - 1 → ∃ m ∈ statuses j, isFinishedModel m = false) ∧
      res = trainDecision (statuses (n - 1)) := by
  intro fuel
  induction fuel with
  | zero => intro k n res h; simp [trainLoop] at h
  | succ fuel ih =>
    intro k n res h
    rw [trainLoop] at h
    by_cases hlt : ((statuses k).filter isFinishedModel).length < (statuses k).length
    · rw [if_pos hlt] at h
      obtain ⟨hkn, hfin, hunfin, hres⟩ := ih (k + 1) n res h
      refine ⟨by omega, hfin, ?_, hres⟩
      intro j hkj hjn
      rcases eq_or_lt_of_le hkj with rfl | hlt'
      · simpa using List.length_filter_lt_length_iff_exists.mp hlt
      · exact hunfin j (by omega) hjn
    · rw [if_neg hlt] at h
      simp only [Option.some.injEq, Prod.mk.injEq] at h
      obtain ⟨rfl, rfl⟩ := h
      have hall : ∀ m ∈ statuses k, isFinishedModel m := by
        intro m hm
        by_contra hpm
        have hle : ((statuses k).filter isFinishedModel).length < (statuses k).length :=
          List.length_filter_lt_length_iff_exists.mpr ⟨m, hm, hpm⟩
        exact hlt hle
      refine ⟨by omega, ?_, ?_, ?_⟩
      · simpa using hall
      · intro j hkj hjk
        omega
      · simp

/-- C7: the training monitor keeps polling while some model's status is
non-terminal and completes exactly at the first poll where every model is
terminal (`Success`, `UpToDate` or `Fail`); the outcome is a failure
carrying each failed model's id and failure reason when some model failed,
and convergence otherwise. For the status sequence `[InProgress,
InProgress]` then `[Success, UpToDate]` it polls exactly twice (hence at
least twice) and converges; for `[Success, Fail "x"]` it fails carrying
`("m2", "x")`. -/
theorem train_monitor_contract :
    (∀ (statuses : Nat → List ModelTrainingStatus) (fuel n : Nat) (res : TrainResult),
      trainMonitor statuses fuel = some (n, res) →
      (∀ m ∈ statuses (n - 1), isFinishedModel m) ∧
      (∀ j, j < n - 1 → ∃ m ∈ statuses j, isFinishedModel m = false) ∧
      ((∃ m ∈ statuses (n - 1), m.status = .fail) →
        res = .failed (((statuses (n - 1)).filter (fun m => m.status == .fail)).map
          (fun m => (m.modelId, m.failureReason)))) ∧
      ((∀ m ∈ statuses (n - 1), m.status ≠ .fail) → res = .converged)) ∧
    (trainMonitor (fun k => if k = 0 then
        [⟨"m1", .inProgress, 0, none⟩, ⟨"m2", .inProgress, 0, none⟩]
      else [⟨"m1", .success, 0, none⟩, ⟨"m2", .upToDate, 0, none⟩]) 2 =
        some (2, .converged) ∧ 2 ≥ 2) ∧
    trainMonitor (fun _ => [⟨"m1", .success, 0, none⟩, ⟨"m2", .fail, 0, some "x"⟩]) 1 =
      some (1, .failed [("m2", some "x")]) := by
  refine ⟨?_, ⟨rfl, by omega⟩, rfl⟩
  intro statuses fuel n res h
  obtain ⟨_, hfin, hunfin, hres⟩ := trainLoop_spec statuses fuel 0 n res h
  refine ⟨hfin, fun j hj => hunfin j (Nat.zero_le _) hj, ?_, ?_⟩
  · intro hex
    rw [hres]
    exact (trainDecision_spec _).1 hex
  · intro hok
    rw [hres]
    exact (trainDecision_spec _).2 hok

/-- Witness for `train_monitor_contract`, applying its general part to the
concrete two-tick status sequence. -/
theorem train_monitor_contract_witness :
    ∀ m ∈ (fun k => if k = 0 then
        [⟨"m1", .inProgress, 0, none⟩, ⟨"m2", .inProgress, 0, none⟩]
      else [⟨"m1", TrainingStatusEnum.success, 0, none⟩,
        ⟨"m2", .upToDate, 0, none⟩] : Nat → List ModelTrainingStatus) (2 - 1),
      isFinishedModel m := by
  have h := train_monitor_contract.1
    (fun k => if k = 0 then
      [⟨"m1", .inProgress, 0, none⟩, ⟨"m2", .inProgress, 0, none⟩]
    else [⟨"m1", .success, 0, none⟩, ⟨"m2", .upToDate, 0, none⟩]) 2 2 .converged rfl
  exact h.1

/-! ## Pagination (read-all) lemmas -/

/-- A round whose pages are all full is kept whole and reports no short
page. -/
theorem scanBunches_noshort :
    ∀ (bs : List (List ExampleGET)),
      (∀ p ∈ bs, MAX_EXAMPLES_COUNT ≤ p.length) →
      scanBunches bs = (bs, false) := by
  intro bs
  induction bs with
  | nil => intro _; rfl
  | cons b bs ih =>
    intro hfull
    have hb := hfull b (by simp)
    simp only [MAX_EXAMPLES_COUNT] at hb
    have h1 : ¬(b.length < MAX_EXAMPLES_COUNT) := by
      simp only [MAX_EXAMPLES_COUNT]; omega
    have h2 : b.length ≠ 0 := by omega
    rw [scanBunches, ih (fun p hp => hfull p (by simp [hp]))]
    simp [h1, h2]

/-- A round split as full pages, then a first short page, then anything:
the scan keeps the non-empty pages up to and including the short page,
drops everything after it, and reports the short page. -/
theorem scanBunches_short :
    ∀ (pre : List (List ExampleGET)) (b : List ExampleGET) (post : List (List ExampleGET)),
      (∀ p ∈ pre, MAX_EXAMPLES_COUNT ≤ p.length) →
      b.length < MAX_EXAMPLES_COUNT →
      scanBunches (pre ++ b :: post) =
        ((pre ++ [b]).filter (fun p => p.length ≠ 0), true) := by
  intro pre
  induction pre with
  | nil =>
    intro b post _ hb
    rw [List.nil_append, scanBunches]
    by_cases hbe : b = []
    · subst hbe
      simp [hb, MAX_EXAMPLES_COUNT]
    · have hbne : b.length ≠ 0 := by simpa [List.length_eq_zero] using hbe
      simp [hb, hbe, hbne]
  | cons p pre ih =>
    intro b post hpre hb
    have hp := hpre p (by simp)
    simp only [MAX_EXAMPLES_COUNT] at hp
    have h1 : ¬(p.length < MAX_EXAMPLES_COUNT) := by
      simp only [MAX_EXAMPLES_COUNT]; omega
    have h2 : ¬(p = []) := by
      intro h
      rw [h] at hp
      simp at hp
    rw [List.cons_append, scanBunches,
      ih b post (fun q hq => hpre q (by simp [hq])) hb]
    simp [h1, h2, List.filter_append]

/-- C10: in each fan-out round of `getAllExamples` the fetched pages are
scanned in ascending offset order; when the round contains a short page
(fewer than `MAX_EXAMPLES_COUNT` items), the operation completes and
returns the concatenation of the non-empty pages preceding the first short
page plus that short page itself if non-empty — every page after the first
short page is dropped, even a non-empty one; when every page of the round
is full, the whole round is kept and the fan-out continues at the next
offset window. -/
theorem getAllExamples_pagination_contract :
    (∀ (f : Nat → List ExampleGET) (fuel skip : Nat)
       (pre : List (List ExampleGET)) (b : List ExampleGET)
       (post : List (List ExampleGET)),
      roundPages f skip = pre ++ b :: post →
      (∀ p ∈ pre, MAX_EXAMPLES_COUNT ≤ p.length) →
      b.length < MAX_EXAMPLES_COUNT →
      getAllExamplesGo f (fuel + 1) skip =
        some (((pre ++ [b]).filter (fun p => p.length ≠ 0)).flatten)) ∧
    (∀ (f : Nat → List ExampleGET) (fuel skip : Nat),
      (∀ p ∈ roundPages f skip, MAX_EXAMPLES_COUNT ≤ p.length) →
      getAllExamplesGo f (fuel + 1) skip =
        (getAllExamplesGo f fuel
          (skip + MAX_PARALLEL_EXAMPLES_REQUESTS * MAX_EXAMPLES_COUNT)).map
          (fun rest => (roundPages f skip).flatten ++ rest)) := by
  constructor
  · intro f fuel skip pre b post hsplit hpre hb
    rw [getAllExamplesGo, hsplit, scanBunches_short pre b post hpre hb]
    rfl
  · intro f fuel skip hfull
    rw [getAllExamplesGo, scanBunches_noshort _ hfull]
    rfl

/-- Witness for `getAllExamples_pagination_contract`: a single round whose
first page holds one example and whose other pages are empty returns
exactly that page; the page function never being consulted past the first
short page is visible in the result. -/
theorem getAllExamples_pagination_contract_witness :
    getAllExamplesGo
      (fun s => if s = 0 then [⟨1, "hi", ["hi"], "greet", [], [], []⟩] else []) 1 0 =
      some [⟨1, "hi", ["hi"], "greet", [], [], []⟩] := by
  have h := getAllExamples_pagination_contract.1
    (fun s => if s = 0 then [⟨1, "hi", ["hi"], "greet", [], [], []⟩] else []) 0 0
    [] [⟨1, "hi", ["hi"], "greet", [], [], []⟩] (List.replicate 14 [])
    (by rfl) (by simp) (by simp [MAX_EXAMPLES_COUNT])
  simpa using h

/-! ## Prediction comparison lemmas (intents) -/

/-- The top predicted intents computed by the code are, up to order, the
predictions sharing the maximum score. -/
theorem getTopPredictedIntents_perm (l : List IntentPrediction) :
    List.Perm (getTopPredictedIntents l)
      (l.filter (fun p => l.all (fun q => decide (q.score ≤ p.score)))) := by
  rw [getTopPredictedIntents]
  cases hs : List.insertionSort intentLe l with
  | nil =>
    have hperm := List.perm_insertionSort intentLe l
    rw [hs] at hperm
    rw [(List.nil_perm.mp hperm)]
    rfl
  | cons top rest =>
    have hperm := List.perm_insertionSort intentLe l
    rw [hs] at hperm
    have hsorted := List.sorted_insertionSort intentLe l
    rw [hs] at hsorted
    have hrest := (List.sorted_cons.mp hsorted).1
    have hmax : ∀ x ∈ l, x.score ≤ top.score := by
      intro x hx
      rcases List.mem_cons.mp (hperm.symm.subset hx) with rfl | hxr
      · exact le_rfl
      · rcases hrest x hxr with hlt | ⟨heq, _⟩
        · exact le_of_lt hlt
        · exact le_of_eq heq
    have htop : top ∈ l := hperm.subset (by simp)
    have hpred : ∀ x ∈ top :: rest,
        (x.score == top.score) = l.all (fun q => decide (q.score ≤ x.score)) := by
      intro x hx
      have hxl : x ∈ l := hperm.subset hx
      rw [Bool.eq_iff_iff]
      simp only [beq_iff_eq, List.all_eq_true, decide_eq_true_eq]
      constructor
      · intro hxe q hq
        rw [hxe]
        exact hmax q hq
      · intro hall
        exact le_antisymm (hmax x hxl) (hall top htop)
    show (List.filter (fun p => p.score == top.score) (top :: rest)).Perm
      (List.filter (fun p => l.all (fun q => decide (q.score ≤ p.score))) l)
    rw [List.filter_congr hpred]
    exact hperm.filter _

/-- Membership in the code's top predicted intents is membership in the
maximum-score set. -/
theorem mem_getTopPredictedIntents {l : List IntentPrediction} {x : IntentPrediction} :
    x ∈ getTopPredictedIntents l ↔ x ∈ l ∧ ∀ q ∈ l, q.score ≤ x.score := by
  rw [(getTopPredictedIntents_perm l).mem_iff]
  simp [List.mem_filter, List.all_eq_true]

/-- C8: per example, if the labeled intent is absent from the set of all
predictions sharing the maximum score, the example is flagged as a hard
intent mismatch (`ambiguousPredictedIntent = false`); if it is present but
that set has more than one element (a score tie), the example is flagged
as ambiguous instead of a hard error; if it is the unique top scorer, no
intent error is reported. -/
theorem checkPredictions_intent_contract (ex : ExampleGET) :
    ((∀ p ∈ ex.intentPredictions.filter
        (fun p => ex.intentPredictions.all (fun q => decide (q.score ≤ p.score))),
        p.name ≠ ex.intentLabel) →
      checkExampleIntent ex = .mismatch (getTopPredictedIntents ex.intentPredictions)) ∧
    ((∃ p ∈ ex.intentPredictions.filter
        (fun p => ex.intentPredictions.all (fun q => decide (q.score ≤ p.score))),
        p.name = ex.intentLabel) →
      1 < (ex.intentPredictions.filter
        (fun p => ex.intentPredictions.all (fun q => decide (q.score ≤ p.score)))).length →
      checkExampleIntent ex = .ambiguous (getTopPredictedIntents ex.intentPredictions)) ∧
    ((∃ p ∈ ex.intentPredictions.filter
        (fun p => ex.intentPredictions.all (fun q => decide (q.score ≤ p.score))),
        p.name = ex.intentLabel) →
      (ex.intentPredictions.filter
        (fun p => ex.intentPredictions.all (fun q => decide (q.score ≤ p.score)))).length = 1 →
      checkExampleIntent ex = .ok) := by
  have hlen : (getTopPredictedIntents ex.intentPredictions).length =
      (ex.intentPredictions.filter
        (fun p => ex.intentPredictions.all (fun q => decide (q.score ≤ p.score)))).length :=
    (getTopPredictedIntents_perm ex.intentPredictions).length_eq
  have hmemiff : ∀ x, x ∈ getTopPredictedIntents ex.intentPredictions ↔
      x ∈ ex.intentPredictions.filter
        (fun p => ex.intentPredictions.all (fun q => decide (q.score ≤ p.score))) :=
    fun x => (getTopPredictedIntents_perm ex.intentPredictions).mem_iff
  refine ⟨?_, ?_, ?_⟩
  · intro habs
    rw [checkExampleIntent, if_pos]
    rw [Option.isNone_iff_eq_none, List.findIdx?_eq_none_iff]
    intro x hx
    simp only [beq_eq_false_iff_ne, ne_eq]
    exact habs x ((hmemiff x).mp hx)
  · intro ⟨p, hp, hpname⟩ htie
    rw [checkExampleIntent, if_neg, if_pos]
    · omega
    · intro hnone
      rw [Option.isNone_iff_eq_none, List.findIdx?_eq_none_iff] at hnone
      have := hnone p ((hmemiff p).mpr hp)
      simp [hpname] at this
  · intro ⟨p, hp, hpname⟩ hone
    rw [checkExampleIntent, if_neg, if_neg]
    · omega
    · intro hnone
      rw [Option.isNone_iff_eq_none, List.findIdx?_eq_none_iff] at hnone
      have := hnone p ((hmemiff p).mpr hp)
      simp [hpname] at this

/-- Witness for `checkPredictions_intent_contract`: labeled intent `"A"`
with two predictions tied at the maximum score is flagged as ambiguous,
and labeled `"A"` with the single top scorer `"B"` is a hard mismatch. -/
theorem checkPredictions_intent_contract_witness :
    checkExampleIntent ⟨0, "t", [], "A", [], [⟨"A", 5⟩, ⟨"B", 5⟩], []⟩ =
      .ambiguous [⟨"A", 5⟩, ⟨"B", 5⟩] ∧
    checkExampleIntent ⟨0, "t", [], "A", [], [⟨"B", 9⟩], []⟩ =
      .mismatch [⟨"B", 9⟩] := by
  constructor
  · have h := (checkPredictions_intent_contract
      ⟨0, "t", [], "A", [], [⟨"A", 5⟩, ⟨"B", 5⟩], []⟩).2.1 (by decide) (by decide)
    rw [h]
    rfl
  · have h := (checkPredictions_intent_contract
      ⟨0, "t", [], "A", [], [⟨"B", 9⟩], []⟩).1 (by decide)
    rw [h]
    rfl

/-! ## Prediction comparison lemmas (entities) -/

/-- lodash deep equality can never identify a remote entity label with an
entity prediction: per the repository's declared interfaces the label
carries `startTokenIndex`/`endTokenIndex` while the prediction carries
`startIndex`/`endIndex`/`phrase`, so the key sets differ. -/
theorem jsDeepEqual_label_pred {l p : JObj} (hl : labelShapedGET l) (hp : predShaped p) :
    jsDeepEqual l p = false := by
  obtain ⟨n, s, e, rfl⟩ := hl
  obtain ⟨n', s', e', w', rfl⟩ := hp
  simp [jsDeepEqual, List.lookup]

/-- C9 amended: for remote examples shaped per the declared interfaces,
`matchPredictedEntities` holds exactly when the example has no labeled
entities: the shape mismatch makes the deep-equality comparator reject
every label/prediction pair, so any labeled entity is reported missing
(and a mismatch flagged) regardless of the predictions, while extra
predicted entities still never cause a mismatch. -/
theorem matchPredictedEntities_amended (ex : ExampleGET)
    (hl : ∀ l ∈ ex.entityLabels, labelShapedGET l)
    (hp : ∀ p ∈ ex.entityPredictions, predShaped p) :
    matchPredictedEntities ex = true ↔ ex.entityLabels = [] := by
  rw [matchPredictedEntities]
  have hdiff : differenceWith ex.entityLabels ex.entityPredictions jsDeepEqual =
      ex.entityLabels := by
    rw [differenceWith_eq_filter]
    apply List.filter_eq_self.mpr
    intro a ha
    simp only [Bool.not_eq_eq_eq_not, Bool.not_true, List.any_eq_false]
    intro b hb
    simp [jsDeepEqual_label_pred (hl a ha) (hp b hb)]
  rw [hdiff]
  simp [List.length_eq_zero]

/-- C9 counterexample: an example whose single labeled entity
(token-indexed) denotes exactly the same entity occurrence as its single
prediction — same `entityName` and the label's token span resolving to the
prediction's character span — so the predicted set supersets the labeled
set in the claim's sense, yet the code flags an entity mismatch. -/
theorem matchPredictedEntities_counterexample :
    specEntitySuperset ⟨7, "Hello", ["Hello"], "greet",
      [[("entityName", .str "e"), ("startTokenIndex", .num 0), ("endTokenIndex", .num 0)]],
      [],
      [[("entityName", .str "e"), ("startIndex", .num 0), ("endIndex", .num 4),
        ("phrase", .str "Hello")]]⟩ = true ∧
    matchPredictedEntities ⟨7, "Hello", ["Hello"], "greet",
      [[("entityName", .str "e"), ("startTokenIndex", .num 0), ("endTokenIndex", .num 0)]],
      [],
      [[("entityName", .str "e"), ("startIndex", .num 0), ("endIndex", .num 4),
        ("phrase", .str "Hello")]]⟩ = false :=
  ⟨rfl, rfl⟩

/-- Witness for `matchPredictedEntities_amended` at a concrete example with
no labeled entities. -/
theorem matchPredictedEntities_amended_witness :
    matchPredictedEntities ⟨1, "hi", ["hi"], "greet", [], [], []⟩ = true := by
  have h := matchPredictedEntities_amended ⟨1, "hi", ["hi"], "greet", [], [], []⟩
    (by simp) (by simp)
  exact h.mpr rfl

/-! ## Example reconciliation: the creation-equality bug (C1) -/

/-- C1: the deletion half behaves as specified (a remote example survives
exactly when a desired example shares its text — here none is deleted),
but the creation half does not compare entities at resolved character
spans: the desired example below matches the remote one on text, intent
and resolved entity span (`specEqExample` is `true`, token 1 of
`"Hello world"` resolving to characters 6–10, exactly the remote label's
`startCharIndex`/`endCharIndex`), yet `updateExamples` still selects it
for creation, because its comparator reads the raw local token indices
`(1, 1)` against the remote character fields `(6, 10)` without tokenizer
resolution. -/
theorem updateExamples_creation_bug :
    specEqExample ⟨"Hello world", "greet", [⟨"e", 1, 1⟩]⟩
      ⟨1, "Hello world", ["Hello", "world"], "greet", [mkPostLabel "e" 6 10], [], []⟩ =
      true ∧
    eqExample ⟨"Hello world", "greet", [⟨"e", 1, 1⟩]⟩
      ⟨1, "Hello world", ["Hello", "world"], "greet", [mkPostLabel "e" 6 10], [], []⟩ =
      false ∧
    updateExamplesDiff [⟨"Hello world", "greet", [⟨"e", 1, 1⟩]⟩]
      [⟨1, "Hello world", ["Hello", "world"], "greet", [mkPostLabel "e" 6 10], [], []⟩] =
      ([], [⟨"Hello world", "greet", [⟨"e", 1, 1⟩]⟩]) :=
  ⟨rfl, rfl, rfl⟩

/-! ## Reconciler algebra (C2) -/

theorem contains_iff_mem [DecidableEq α] {l : List α} {a : α} :
    l.contains a = true ↔ a ∈ l := by
  simp [List.contains]

theorem bnot_contains_true [DecidableEq α] {l : List α} {a : α} :
    (!l.contains a) = true ↔ a ∉ l := by
  rw [Bool.not_eq_true']
  rw [← Bool.not_eq_true, contains_iff_mem]

/-- Removing the computed deletions keeps exactly the remote intents that
match some desired intent by name. -/
theorem removeIntents_delete (oldIntents : List IntentGET) (intents : List IntentPOST) :
    removeIntents oldIntents (intentsToBeDeleted oldIntents intents) =
      oldIntents.filter (fun r => intents.any (fun b => r.name == b.name)) := by
  rw [removeIntents]
  apply List.filter_congr
  intro r hr
  rw [Bool.eq_iff_iff, bnot_contains_true]
  constructor
  · intro hnot
    by_contra hany
    rw [Bool.not_eq_true] at hany
    apply hnot
    rw [intentsToBeDeleted, mem_differenceWith]
    exact ⟨hr, fun b hb => by simpa using List.any_eq_false.mp hany b hb⟩
  · intro hany hmem
    rw [intentsToBeDeleted, mem_differenceWith] at hmem
    obtain ⟨b, hb, hcmp⟩ := List.any_eq_true.mp hany
    have := hmem.2 b hb
    rw [this] at hcmp
    exact absurd hcmp (by simp)

/-- C2 as amended: the computed creations are disjoint from the remote
collection and the computed deletions from the desired collection, under
the respective comparison of each collection (intents by name; examples by
the code's creation equality for creations and by text for deletions).
Re-running the diff after applying it yields empty deltas for the intents
collection, for any service id assignment preserving names. For the
examples collection the re-run delete delta is always empty (creation
preserves text), and the re-run create delta is empty whenever the desired
examples carry no entity annotations; in general it need not be empty —
the counterexample exhibits an annotated example selected for creation
again right after its own creation, because the creation equality compares
the raw local token indices against the stored character spans. -/
theorem reconciler_contract :
    (∀ (oldIntents : List IntentGET) (intents : List IntentPOST),
      (∀ c ∈ intentsToBeCreated intents oldIntents, ∀ r ∈ oldIntents, c.name ≠ r.name) ∧
      (∀ d ∈ intentsToBeDeleted oldIntents intents, ∀ x ∈ intents, d.name ≠ x.name)) ∧
    (∀ (oldIntents : List IntentGET) (intents : List IntentPOST)
       (assign : IntentPOST → IntentGET),
      (∀ p, (assign p).name = p.name) →
      intentsToBeDeleted (applyIntentsUpdate oldIntents intents assign) intents = [] ∧
      intentsToBeCreated intents (applyIntentsUpdate oldIntents intents assign) = []) ∧
    (∀ (oldExamples : List ExampleGET) (modelExamples : List Utterance),
      (∀ a ∈ examplesToBeCreatedSel modelExamples oldExamples,
        ∀ b ∈ oldExamples, eqExample a b = false) ∧
      (∀ d ∈ examplesToBeDeleted oldExamples modelExamples,
        ∀ a ∈ modelExamples, d.text ≠ a.text)) ∧
    (∀ (oldExamples : List ExampleGET) (modelExamples : List Utterance)
       (reify : Utterance → ExampleGET),
      (∀ u, (reify u).text = u.text) →
      examplesToBeDeleted (applyExamplesUpdate oldExamples modelExamples reify)
        modelExamples = []) ∧
    (∀ (oldExamples : List ExampleGET) (modelExamples : List Utterance)
       (reify : Utterance → ExampleGET),
      (∀ u, (reify u).text = u.text) →
      (∀ u, (reify u).intentLabel = u.intent) →
      (∀ u, (reify u).entityLabels = []) →
      (∀ a ∈ modelExamples, a.entities = []) →
      examplesToBeCreatedSel modelExamples
        (applyExamplesUpdate oldExamples modelExamples reify) = []) := by
  refine ⟨?_, ?_, ?_, ?_, ?_⟩
  · intro oldIntents intents
    constructor
    · intro c hc r hr
      rw [intentsToBeCreated, mem_differenceWith] at hc
      have := hc.2 r hr
      simpa using this
    · intro d hd x hx
      rw [intentsToBeDeleted, mem_differenceWith] at hd
      have := hd.2 x hx
      simpa using this
  · intro oldIntents intents assign hassign
    constructor
    · rw [intentsToBeDeleted, differenceWith_eq_filter]
      rw [List.filter_eq_nil_iff]
      intro r hr
      simp only [Bool.not_eq_eq_eq_not, Bool.not_true, Bool.not_eq_false]
      rw [applyIntentsUpdate, List.mem_append] at hr
      rcases hr with hr | hr
      · rw [removeIntents_delete, List.mem_filter] at hr
        exact hr.2
      · obtain ⟨p, hp, rfl⟩ := List.mem_map.mp hr
        rw [intentsToBeCreated, mem_differenceWith] at hp
        apply List.any_eq_true.mpr
        exact ⟨p, hp.1, by simp [hassign p]⟩
    · rw [intentsToBeCreated, differenceWith_eq_filter]
      rw [List.filter_eq_nil_iff]
      intro d hd
      simp only [Bool.not_eq_eq_eq_not, Bool.not_true, Bool.not_eq_false]
      apply List.any_eq_true.mpr
      by_cases hm : ∃ r ∈ oldIntents, d.name = r.name
      · obtain ⟨r, hr, hname⟩ := hm
        refine ⟨r, ?_, by simp [hname]⟩
        rw [applyIntentsUpdate, List.mem_append]
        left
        rw [removeIntents_delete, List.mem_filter]
        exact ⟨hr, List.any_eq_true.mpr ⟨d, hd, by simp [hname]⟩⟩
      · push_neg at hm
        refine ⟨assign d, ?_, by simp [hassign d]⟩
        rw [applyIntentsUpdate, List.mem_append]
        right
        apply List.mem_map.mpr
        refine ⟨d, ?_, rfl⟩
        rw [intentsToBeCreated, mem_differenceWith]
        exact ⟨hd, fun r hr => by simpa using hm r hr⟩
  · intro oldExamples modelExamples
    constructor
    · intro a ha b hb
      rw [examplesToBeCreatedSel, mem_differenceWith] at ha
      exact ha.2 b hb
    · intro d hd a ha
      rw [examplesToBeDeleted, mem_differenceWith] at hd
      have := hd.2 a ha
      simpa using this
  · intro oldExamples modelExamples reify hretext
    rw [examplesToBeDeleted, differenceWith_eq_filter, List.filter_eq_nil_iff]
    intro r hr
    simp only [Bool.not_eq_eq_eq_not, Bool.not_true, Bool.not_eq_false]
    apply List.any_eq_true.mpr
    rw [applyExamplesUpdate, List.mem_append] at hr
    rcases hr with hr | hr
    · rw [removeExamples, List.mem_filter] at hr
      obtain ⟨hrold, hrkeep⟩ := hr
      by_cases hm : ∃ a ∈ modelExamples, r.text = a.text
      · obtain ⟨a, ha, htext⟩ := hm
        exact ⟨a, ha, by simp [htext]⟩
      · exfalso
        push_neg at hm
        have hrdel : r ∈ examplesToBeDeleted oldExamples modelExamples := by
          rw [examplesToBeDeleted, mem_differenceWith]
          exact ⟨hrold, fun a ha => by simpa using hm a ha⟩
        have hc := contains_iff_mem.mpr hrdel
        rw [hc] at hrkeep
        exact absurd hrkeep (by simp)
    · obtain ⟨u, hu, rfl⟩ := List.mem_map.mp hr
      rw [examplesToBeCreatedSel, mem_differenceWith] at hu
      exact ⟨u, hu.1, by simp [hretext u]⟩
  · intro oldExamples modelExamples reify hretext hreintent hrelabels hnoent
    rw [examplesToBeCreatedSel, differenceWith_eq_filter, List.filter_eq_nil_iff]
    intro a ha
    simp only [Bool.not_eq_eq_eq_not, Bool.not_true, Bool.not_eq_false]
    apply List.any_eq_true.mpr
    by_cases hm : ∃ b ∈ oldExamples, eqExample a b = true
    · obtain ⟨b, hb, heq⟩ := hm
      refine ⟨b, ?_, heq⟩
      rw [applyExamplesUpdate, List.mem_append]
      left
      rw [removeExamples, List.mem_filter]
      refine ⟨hb, ?_⟩
      simp only [Bool.not_eq_eq_eq_not, Bool.not_true, Bool.not_eq_false]
      rw [← Bool.not_eq_true]
      intro hcon
      have hmem := contains_iff_mem.mp hcon
      rw [examplesToBeDeleted, mem_differenceWith] at hmem
      have htext : a.text = b.text := by
        have := heq
        rw [eqExample] at this
        simp only [Bool.and_eq_true, beq_iff_eq] at this
        exact this.1.1.1
      have := hmem.2 a ha
      rw [htext] at this
      exact absurd this (by simp)
    · push_neg at hm
      refine ⟨reify a, ?_, ?_⟩
      · rw [applyExamplesUpdate, List.mem_append]
        right
        apply List.mem_map.mpr
        refine ⟨a, ?_, rfl⟩
        rw [examplesToBeCreatedSel, mem_differenceWith]
        refine ⟨ha, fun b hb => ?_⟩
        have := hm b hb
        simpa using this
      · rw [eqExample]
        have hae := hnoent a ha
        simp [hretext a, hreintent a, hrelabels a, hae, intersectionWith,
          intersectionWithGo]

/-- C2 counterexample (idempotence fails for the examples collection):
starting from an empty remote collection, the diff creates the desired
example, uploading its entity at resolved characters 6–10; on the remote
state holding exactly that created example, re-running the diff selects
the same example for creation again (its raw token indices `(1, 1)` do
not match the stored character span `(6, 10)`), so the re-run deltas are
not empty. -/
theorem reconciler_idempotence_counterexample :
    updateExamplesDiff [⟨"Hello world", "greet", [⟨"e", 1, 1⟩]⟩] [] =
      ([], [⟨"Hello world", "greet", [⟨"e", 1, 1⟩]⟩]) ∧
    convertExample ⟨"Hello world", "greet", [⟨"e", 1, 1⟩]⟩ =
      .ok ⟨"Hello world", "greet", some [mkPostLabel "e" 6 10]⟩ ∧
    examplesToBeCreatedSel [⟨"Hello world", "greet", [⟨"e", 1, 1⟩]⟩]
      [⟨2, "Hello world", ["Hello", "world"], "greet", [mkPostLabel "e" 6 10], [], []⟩] =
      [⟨"Hello world", "greet", [⟨"e", 1, 1⟩]⟩] :=
  ⟨rfl, rfl, rfl⟩

/-- Witness for `reconciler_contract`: applying the intents idempotence
part at a concrete state (one stale remote intent, one new desired
intent). -/
theorem reconciler_contract_witness :
    intentsToBeDeleted
      (applyIntentsUpdate [⟨"id1", "old"⟩] [⟨"new"⟩] (fun p => ⟨"id2", p.name⟩))
      [⟨"new"⟩] = [] ∧
    intentsToBeCreated [⟨"new"⟩]
      (applyIntentsUpdate [⟨"id1", "old"⟩] [⟨"new"⟩] (fun p => ⟨"id2", p.name⟩)) = [] := by
  exact (reconciler_contract.2.1 [⟨"id1", "old"⟩] [⟨"new"⟩]
    (fun p => ⟨"id2", p.name⟩) (fun p => rfl))

end LuisCli
